import Mathlib

/-!
Verification of the mpsym/cgtl computational group theory code
(repository goens/TUD_computational_group_theory).

Permutations are embedded as their image vectors over `{0..n-1}`
(`List Nat`): the source's `Perm` class stores exactly such a vector
(1-indexed in the cgtl generation; we standardise on 0-indexed images,
so the source expression `perm[x + 1] - 1` becomes `papply p x`).
Task mappings are `List Nat` of processor indices, compared
lexicographically, matching `TaskMapping`/`TaskAllocation`.
-/

namespace CGT

/-- Apply a permutation image vector to a point: `p[x]`, identity out of
range (the source only ever applies a permutation to points below its
degree). -/
def papply (p : List Nat) (x : Nat) : Nat := p.getD x x

/-- Composition `(p * q)[i] = p[q[i]]` (spec section 4.1: `q` acts first). -/
def pcomp (p q : List Nat) : List Nat := q.map (fun x => papply p x)

/-- The identity permutation of degree `n`. -/
def pid (n : Nat) : List Nat := List.range n

/-- Inverse permutation: position of each point in the image vector. -/
def pinv (p : List Nat) : List Nat := (List.range p.length).map (fun y => p.indexOf y)

/-- `p` is a valid permutation image vector of degree `n`: length `n`,
no duplicates, all images below `n` (source invariant: every value in
`{0..n-1}` appears exactly once). -/
def validPerm (n : Nat) (p : List Nat) : Prop :=
  p.length = n ∧ p.Nodup ∧ ∀ x ∈ p, x < n

instance (n : Nat) (p : List Nat) : Decidable (validPerm n p) := by
  unfold validPerm; infer_instance

theorem papply_eq_getElem {p : List Nat} {x : Nat} (hx : x < p.length) :
    papply p x = p[x] := by
  simp [papply, List.getD_eq_getElem?_getD, List.getElem?_eq_getElem hx]

theorem papply_lt {n : Nat} {p : List Nat} (hp : validPerm n p) {x : Nat} (hx : x < n) :
    papply p x < n := by
  rcases hp with ⟨hl, _, hmem⟩
  have hx' : x < p.length := by omega
  rw [papply_eq_getElem hx']
  exact hmem _ (p.get_mem x hx')

theorem papply_pid {n x : Nat} (hx : x < n) : papply (pid n) x = x := by
  simp [papply, pid, List.getD_eq_getElem?_getD, List.getElem?_range hx]

theorem pcomp_length (p q : List Nat) : (pcomp p q).length = q.length := by
  simp [pcomp]

theorem pcomp_apply {p q : List Nat} {x : Nat} (hx : x < q.length) :
    papply (pcomp p q) x = papply p (papply q x) := by
  have hx2 : x < (pcomp p q).length := by rw [pcomp_length]; exact hx
  have h1 : papply (pcomp p q) x = (pcomp p q)[x] := papply_eq_getElem hx2
  have h2 : papply q x = q[x] := papply_eq_getElem hx
  rw [h1, h2]
  simp [pcomp]

theorem papply_pinv {n : Nat} {p : List Nat} (hp : validPerm n p) {x : Nat} (hx : x < n) :
    papply (pinv p) (papply p x) = x := by
  rcases hp with ⟨hl, hnd, hmem⟩
  have hx' : x < p.length := by omega
  have happ : papply p x = p[x] := papply_eq_getElem hx'
  have hplt : p[x] < n := by
    rw [← happ]; exact papply_lt ⟨hl, hnd, hmem⟩ hx
  have hpx : p[x] < (pinv p).length := by simp [pinv]; omega
  have h1 : papply (pinv p) (p[x]) = (pinv p)[p[x]] := papply_eq_getElem hpx
  rw [happ, h1]
  have : (pinv p)[p[x]] = p.indexOf (p[x]) := by
    simp [pinv]
  rw [this]
  exact List.indexOf_getElem hnd x hx'

theorem papply_inj {n : Nat} {p : List Nat} (hp : validPerm n p) {x y : Nat}
    (hx : x < n) (hy : y < n) (h : papply p x = papply p y) : x = y := by
  have h1 := papply_pinv hp hx
  have h2 := papply_pinv hp hy
  rw [h] at h1
  omega

theorem validPerm_pcomp {n : Nat} {p q : List Nat}
    (hp : validPerm n p) (hq : validPerm n q) : validPerm n (pcomp p q) := by
  obtain ⟨hql, hqnd, hqmem⟩ := hq
  refine ⟨by simp [pcomp_length, hql], ?_, ?_⟩
  · refine List.Nodup.map_on ?_ hqnd
    intro x hx y hy hxy
    exact papply_inj hp (hqmem x hx) (hqmem y hy) hxy
  · intro x hx
    simp only [pcomp, List.mem_map] at hx
    obtain ⟨y, hy, rfl⟩ := hx
    exact papply_lt hp (hqmem y hy)

theorem validPerm_pid (n : Nat) : validPerm n (pid n) := by
  refine ⟨by simp [pid], by simpa [pid] using List.nodup_range n, ?_⟩
  intro x hx
  simpa [pid] using hx

/-! ### Lexicographic comparison of task mappings

The source compares task mappings entry by entry, first difference
decides (`TaskMapping::less_than`, and inlined in
`min_elem_bruteforce` / `min_elem_approx`). -/

/-- Strict lexicographic comparison of two task mappings. -/
def lexLt : List Nat → List Nat → Bool
  | [], [] => false
  | [], _ :: _ => true
  | _ :: _, [] => false
  | x :: xs, y :: ys => decide (x < y) || (decide (x = y) && lexLt xs ys)

/-- `a` is lexicographically at most `b`. -/
def lexLe (a b : List Nat) : Bool := !(lexLt b a)

theorem lexLt_irrefl (a : List Nat) : lexLt a a = false := by
  induction a with
  | nil => rfl
  | cons x xs ih => simp [lexLt, ih]

theorem lexLt_trans : ∀ {a b c : List Nat},
    lexLt a b = true → lexLt b c = true → lexLt a c = true := by
  intro a
  induction a with
  | nil =>
    intro b c hab hbc
    cases b with
    | nil => simp [lexLt] at hab
    | cons y ys =>
      cases c with
      | nil => simp [lexLt] at hbc
      | cons z zs => simp [lexLt]
  | cons x xs ih =>
    intro b c hab hbc
    cases b with
    | nil => simp [lexLt] at hab
    | cons y ys =>
      cases c with
      | nil => simp [lexLt] at hbc
      | cons z zs =>
        simp only [lexLt, Bool.or_eq_true, Bool.and_eq_true, decide_eq_true_eq] at hab hbc ⊢
        rcases hab with h1 | ⟨h1, h1'⟩ <;> rcases hbc with h2 | ⟨h2, h2'⟩
        · exact Or.inl (by omega)
        · exact Or.inl (by omega)
        · exact Or.inl (by omega)
        · exact Or.inr ⟨by omega, ih h1' h2'⟩

theorem lexLt_connex : ∀ {a b : List Nat},
    lexLt a b = false → lexLt b a = false → a = b := by
  intro a
  induction a with
  | nil =>
    intro b hab _
    cases b with
    | nil => rfl
    | cons y ys => simp [lexLt] at hab
  | cons x xs ih =>
    intro b hab hba
    cases b with
    | nil => simp [lexLt] at hba
    | cons y ys =>
      simp only [lexLt, Bool.or_eq_false_iff, Bool.and_eq_false_iff,
        decide_eq_false_iff_not] at hab hba
      obtain ⟨h1, h2⟩ := hab
      obtain ⟨h3, h4⟩ := hba
      have hxy : x = y := by omega
      subst hxy
      rcases h2 with h2 | h2
      · omega
      · rcases h4 with h4 | h4
        · omega
        · rw [ih h2 h4]

theorem lexLt_asymm {a b : List Nat} (h : lexLt a b = true) : lexLt b a = false := by
  cases hba : lexLt b a with
  | false => rfl
  | true => have := lexLt_trans h hba; rw [lexLt_irrefl] at this; exact absurd this (by simp)

theorem lexLe_refl (a : List Nat) : lexLe a a = true := by
  simp [lexLe, lexLt_irrefl]

theorem lexLe_of_lexLt {a b : List Nat} (h : lexLt a b = true) : lexLe a b = true := by
  simp [lexLe, lexLt_asymm h]

theorem lexLe_trans {a b c : List Nat} (hab : lexLe a b = true) (hbc : lexLe b c = true) :
    lexLe a c = true := by
  simp only [lexLe, Bool.not_eq_true'] at hab hbc ⊢
  cases hca : lexLt c a with
  | false => rfl
  | true =>
    exfalso
    cases hbc2 : lexLt b c with
    | true =>
      have := lexLt_trans hbc2 hca
      rw [hab] at this; exact absurd this (by simp)
    | false =>
      have hbceq := lexLt_connex hbc2 hbc
      subst hbceq
      rw [hca] at hab; exact absurd hab (by simp)

theorem lexLt_of_lexLt_of_lexLe {a b c : List Nat}
    (hab : lexLt a b = true) (hbc : lexLe b c = true) : lexLt a c = true := by
  simp only [lexLe, Bool.not_eq_true'] at hbc
  cases hac : lexLt a c with
  | true => rfl
  | false =>
    exfalso
    cases hca : lexLt c a with
    | true =>
      have := lexLt_trans hca hab
      rw [hbc] at this; exact absurd this (by simp)
    | false =>
      have := lexLt_connex hac hca
      subst this
      rw [hab] at hbc; exact absurd hbc (by simp)

theorem lexLe_of_lexLt_of_lexLe {a b c : List Nat}
    (hab : lexLt a b = true) (hbc : lexLe b c = true) : lexLe a c = true :=
  lexLe_of_lexLt (lexLt_of_lexLt_of_lexLe hab hbc)

theorem lexLe_of_not_lexLt {a b : List Nat} (h : lexLt a b = false) : lexLe b a = true := by
  simp [lexLe, h]

end CGT

namespace CGT

/-! ### Task mappings and their permutation

`TaskMapping::permuted(perm, offset)` and the inlined loops of
`min_elem_bruteforce` (arch_graph.cc lines 296-341): an entry `t` of
the mapping is replaced by `perm[t - offset] + offset` when
`offset <= t <= offset + degree - 1` (`min_pe`/`max_pe` in the source)
and left unchanged otherwise.  The source writes `perm[task + 1] - 1`
because the cgtl `Perm` class is 1-indexed; `papply` is its 0-indexed
counterpart. -/

/-- Image of a single task entry under a permutation restricted to
processor indices in `[lo, hi]`. -/
def taskPermVal (g : List Nat) (lo hi t : Nat) : Nat :=
  if lo ≤ t ∧ t ≤ hi then papply g (t - lo) + lo else t

/-- `TaskMapping::permuted`: apply a permutation to every in-range entry. -/
def taskPermuted (m : List Nat) (g : List Nat) (lo hi : Nat) : List Nat :=
  m.map (taskPermVal g lo hi)

theorem taskPermuted_length (m g : List Nat) (lo hi : Nat) :
    (taskPermuted m g lo hi).length = m.length := by
  simp [taskPermuted]

theorem taskPermVal_pid {n lo hi : Nat} (hn : hi + 1 = lo + n) (t : Nat) :
    taskPermVal (pid n) lo hi t = t := by
  unfold taskPermVal
  by_cases h : lo ≤ t ∧ t ≤ hi
  · obtain ⟨h1, h2⟩ := h
    rw [if_pos ⟨h1, h2⟩, papply_pid (by omega)]
    omega
  · rw [if_neg h]

theorem taskPermuted_pid {n lo hi : Nat} (hn : hi + 1 = lo + n) (m : List Nat) :
    taskPermuted m (pid n) lo hi = m := by
  induction m with
  | nil => rfl
  | cons t ts ih =>
    simp only [taskPermuted, List.map_cons] at ih ⊢
    rw [taskPermVal_pid hn, ih]

theorem taskPermVal_comp {n lo hi : Nat} (hn : hi + 1 = lo + n)
    {a : List Nat} (ha : validPerm n a) (b : List Nat) (t : Nat) :
    taskPermVal b lo hi (taskPermVal a lo hi t) = taskPermVal (pcomp b a) lo hi t := by
  by_cases h : lo ≤ t ∧ t ≤ hi
  · obtain ⟨h1, h2⟩ := h
    have hlt : t - lo < n := by omega
    have happ : papply a (t - lo) < n := papply_lt ha hlt
    have hla : t - lo < a.length := by rw [ha.1]; omega
    have e1 : taskPermVal a lo hi t = papply a (t - lo) + lo := by
      unfold taskPermVal; rw [if_pos ⟨h1, h2⟩]
    have e2 : taskPermVal b lo hi (papply a (t - lo) + lo)
        = papply b (papply a (t - lo)) + lo := by
      unfold taskPermVal
      rw [if_pos (by omega : lo ≤ papply a (t - lo) + lo ∧ papply a (t - lo) + lo ≤ hi)]
      congr 2
      omega
    have e3 : taskPermVal (pcomp b a) lo hi t = papply b (papply a (t - lo)) + lo := by
      unfold taskPermVal
      rw [if_pos ⟨h1, h2⟩, pcomp_apply hla]
    rw [e1, e2, e3]
  · unfold taskPermVal
    rw [if_neg h, if_neg h, if_neg h]

theorem taskPermuted_comp {n lo hi : Nat} (hn : hi + 1 = lo + n)
    {a : List Nat} (ha : validPerm n a) (b m : List Nat) :
    taskPermuted (taskPermuted m a lo hi) b lo hi = taskPermuted m (pcomp b a) lo hi := by
  unfold taskPermuted
  rw [List.map_map]
  apply List.map_congr_left
  intro t _
  exact taskPermVal_comp hn ha b t

/-- Cancellation used to translate points of the orbit of a permuted
mapping back to the orbit of the original one. -/
theorem pcomp_pcomp_pinv {n : Nat} {e : List Nat} (he : validPerm n e)
    {x : List Nat} (hx : validPerm n x) : pcomp (pcomp x (pinv e)) e = x := by
  have hel : e.length = n := he.1
  have hxl : x.length = n := hx.1
  apply List.ext_getElem (by simp [pcomp_length]; omega)
  intro i h1 h2
  have hi : i < n := by simpa [pcomp_length, hel] using h1
  have hgetc : (pcomp (pcomp x (pinv e)) e)[i] = papply (pcomp (pcomp x (pinv e)) e) i :=
    (papply_eq_getElem h1).symm
  rw [hgetc, pcomp_apply (by omega : i < e.length)]
  have happe : papply e i < n := papply_lt he hi
  rw [pcomp_apply (by simp [pinv, hel]; omega : papply e i < (pinv e).length)]
  rw [papply_pinv he hi]
  exact papply_eq_getElem (by omega)

end CGT

namespace CGT

/-! ### Claim C1: `ArchGraphSystem::min_elem_iterate`
(arch_graph_system.cc lines 44-70)

The loop scans every element of `automorphisms()`, replaces the current
representative whenever `tasks.less_than(representative, element, offset)`
holds (i.e. the permuted copy of `tasks` is lexicographically smaller),
and early-exits when `is_repr(representative, options, orbits)` holds.
`is_repr` (not among the provided sources) is modelled from the spec:
it holds exactly when the mapping is already present in the supplied
`TaskOrbits` cache as a known representative; a null cache is `none`. -/

/-- Modelled from the spec: `is_repr` tests membership of the mapping in
the optional `TaskOrbits` cache (spec section 4.9: early-exit when the
current best is "already present in orbits as a known representative"). -/
def is_repr (orbits : Option (List (List Nat))) (m : List Nat) : Bool :=
  match orbits with
  | none => false
  | some os => os.contains m

/-- Loop body of `min_elem_iterate`: fold over the group elements. -/
def mei_go (tasks : List Nat) (lo hi : Nat) (orbits : Option (List (List Nat))) :
    List (List Nat) → List Nat → List Nat
  | [], rep => rep
  | e :: es, rep =>
    if lexLt (taskPermuted tasks e lo hi) rep then
      if is_repr orbits (taskPermuted tasks e lo hi) then taskPermuted tasks e lo hi
      else mei_go tasks lo hi orbits es (taskPermuted tasks e lo hi)
    else mei_go tasks lo hi orbits es rep

/-- `ArchGraphSystem::min_elem_iterate`: iterate over all automorphisms,
keeping the lexicographically smallest permuted copy of `tasks`. -/
def min_elem_iterate (elems : List (List Nat)) (tasks : List Nat)
    (lo hi : Nat) (orbits : Option (List (List Nat))) : List Nat :=
  mei_go tasks lo hi orbits elems tasks

theorem mei_go_spec {n lo hi : Nat} (hn : hi + 1 = lo + n)
    (elems : List (List Nat)) (tasks : List Nat) (orbits : Option (List (List Nat)))
    (hval : ∀ g ∈ elems, validPerm n g)
    (hcomp : ∀ g ∈ elems, ∀ h ∈ elems, pcomp g h ∈ elems)
    (hinv : ∀ g ∈ elems, pinv g ∈ elems)
    (hcache : ∀ os, orbits = some os → ∀ c ∈ os, ∀ g ∈ elems,
      lexLe c (taskPermuted c g lo hi) = true) :
    ∀ es rep, (∀ e ∈ es, e ∈ elems) →
      (∃ g ∈ elems, rep = taskPermuted tasks g lo hi) →
      (∃ g ∈ elems, mei_go tasks lo hi orbits es rep = taskPermuted tasks g lo hi)
      ∧ lexLe (mei_go tasks lo hi orbits es rep) rep = true
      ∧ ∀ e ∈ es, lexLe (mei_go tasks lo hi orbits es rep) (taskPermuted tasks e lo hi) = true := by
  intro es
  induction es with
  | nil =>
    intro rep _ hrep
    refine ⟨hrep, lexLe_refl rep, ?_⟩
    intro e he
    exact absurd he (List.not_mem_nil e)
  | cons e es ih =>
    intro rep hsub hrep
    have hesub : ∀ x ∈ es, x ∈ elems := fun x hx => hsub x (List.mem_cons_of_mem e hx)
    have hemem : e ∈ elems := hsub e (List.mem_cons_self e es)
    by_cases hlt : lexLt (taskPermuted tasks e lo hi) rep = true
    · by_cases hir : is_repr orbits (taskPermuted tasks e lo hi) = true
      · -- early exit through the TaskOrbits cache
        have hres : mei_go tasks lo hi orbits (e :: es) rep = taskPermuted tasks e lo hi := by
          simp [mei_go, hlt, hir]
        rw [hres]
        obtain ⟨os, hos⟩ : ∃ os, orbits = some os := by
          cases orbits with
          | none => simp [is_repr] at hir
          | some os => exact ⟨os, rfl⟩
        have hmem : taskPermuted tasks e lo hi ∈ os := by
          rw [hos] at hir
          simpa [is_repr] using hir
        have hcmin := hcache os hos _ hmem
        refine ⟨⟨e, hemem, rfl⟩, lexLe_of_lexLt hlt, ?_⟩
        intro x hx
        have hxel : x ∈ elems := hsub x hx
        -- rewrite the permuted copy of tasks under x as a permuted copy of
        -- the early-exit representative
        have hxe : taskPermuted tasks x lo hi
            = taskPermuted (taskPermuted tasks e lo hi) (pcomp x (pinv e)) lo hi := by
          rw [taskPermuted_comp hn (hval e hemem)]
          rw [pcomp_pcomp_pinv (hval e hemem) (hval x hxel)]
        rw [hxe]
        exact hcmin _ (hcomp x hxel _ (hinv e hemem))
      · have hres : mei_go tasks lo hi orbits (e :: es) rep
            = mei_go tasks lo hi orbits es (taskPermuted tasks e lo hi) := by
          simp [mei_go, hlt, hir]
        rw [hres]
        obtain ⟨hmemres, hle, hmin⟩ := ih (taskPermuted tasks e lo hi) hesub ⟨e, hemem, rfl⟩
        refine ⟨hmemres, lexLe_trans hle (lexLe_of_lexLt hlt), ?_⟩
        intro x hx
        rcases List.mem_cons.mp hx with rfl | hx'
        · exact hle
        · exact hmin x hx'
    · have hres : mei_go tasks lo hi orbits (e :: es) rep = mei_go tasks lo hi orbits es rep := by
        simp [mei_go, hlt]
      rw [hres]
      obtain ⟨hmemres, hle, hmin⟩ := ih rep hesub hrep
      refine ⟨hmemres, hle, ?_⟩
      intro x hx
      rcases List.mem_cons.mp hx with rfl | hx'
      · exact lexLe_trans hle (lexLe_of_not_lexLt (by simpa using hlt))
      · exact hmin x hx'

/-- C1.  For every task mapping and every architecture graph system
(whose automorphism group is given by its element list `elems`, closed
under composition and inverse and containing the identity), the Iterate
strategy returns the lexicographically minimum element of the orbit of
`tasks` under the group, restricted to processor indices in
`[lo, lo + n)`; in particular the result is lexicographically at most
`tasks` and lies in the orbit of `tasks`.  The `TaskOrbits` cache, when
supplied, may hold only known representatives (lexicographic minima of
their own orbits). -/
theorem min_elem_iterate_min_orbit {n lo hi : Nat}
    (elems : List (List Nat)) (tasks : List Nat) (orbits : Option (List (List Nat)))
    (hn : hi + 1 = lo + n)
    (hval : ∀ g ∈ elems, validPerm n g)
    (hid : pid n ∈ elems)
    (hcomp : ∀ g ∈ elems, ∀ h ∈ elems, pcomp g h ∈ elems)
    (hinv : ∀ g ∈ elems, pinv g ∈ elems)
    (hcache : ∀ os, orbits = some os → ∀ c ∈ os, ∀ g ∈ elems,
      lexLe c (taskPermuted c g lo hi) = true) :
    (∃ g ∈ elems, min_elem_iterate elems tasks lo hi orbits = taskPermuted tasks g lo hi)
    ∧ (∀ g ∈ elems,
        lexLe (min_elem_iterate elems tasks lo hi orbits) (taskPermuted tasks g lo hi) = true)
    ∧ lexLe (min_elem_iterate elems tasks lo hi orbits) tasks = true := by
  obtain ⟨hmem, _, hmin⟩ :=
    mei_go_spec hn elems tasks orbits hval hcomp hinv hcache elems tasks
      (fun e he => he) ⟨pid n, hid, (taskPermuted_pid hn tasks).symm⟩
  refine ⟨hmem, hmin, ?_⟩
  have := hmin (pid n) hid
  rwa [taskPermuted_pid hn tasks] at this

/-- Witness for C1: the symmetric group on two processors and the task
mapping `[1, 0]` with a null orbits cache. -/
theorem min_elem_iterate_min_orbit_witness :
    ((1 : Nat) + 1 = 0 + 2
      ∧ (∀ g ∈ [[0, 1], [1, 0]], validPerm 2 g)
      ∧ pid 2 ∈ [[0, 1], [1, 0]]
      ∧ (∀ g ∈ [[0, 1], [1, 0]], ∀ h ∈ [[0, 1], [1, 0]], pcomp g h ∈ [[0, 1], [1, 0]])
      ∧ (∀ g ∈ [[0, 1], [1, 0]], pinv g ∈ [[0, 1], [1, 0]]))
    ∧ ((∃ g ∈ [[0, 1], [1, 0]],
          min_elem_iterate [[0, 1], [1, 0]] [1, 0] 0 1 none = taskPermuted [1, 0] g 0 1)
      ∧ (∀ g ∈ [[0, 1], [1, 0]],
          lexLe (min_elem_iterate [[0, 1], [1, 0]] [1, 0] 0 1 none)
            (taskPermuted [1, 0] g 0 1) = true)
      ∧ lexLe (min_elem_iterate [[0, 1], [1, 0]] [1, 0] 0 1 none) [1, 0] = true) := by
  refine ⟨by decide, ?_⟩
  exact min_elem_iterate_min_orbit (n := 2) [[0, 1], [1, 0]] [1, 0] none (by decide) (by decide)
    (by decide) (by decide) (by decide) (fun os h => nomatch h)

end CGT

namespace CGT

/-! ### Claim C2: `ArchGraphSystem::min_elem_local_search`
(arch_graph_system.cc lines 72-101)

The source repeats a scan over `automorphisms().generators()`: whenever
`representative.less_than(representative, generator, offset)` holds
(the permuted copy is lexicographically smaller) the representative is
permuted in place; the `while (!stationary)` loop stops after a scan
with no update.  Every update strictly decreases the representative in
the lexicographic order, so the number of passes is bounded by the
base-`B` value of the initial mapping for any `B` exceeding every
reachable entry; the `while` loop is embedded with that value as
explicit fuel. -/

/-- One generator step of the scan (the body of the `for` loop over
generators, including the `stationary = false` flag update). -/
def lsStep (lo hi : Nat) (p : List Nat × Bool) (g : List Nat) : List Nat × Bool :=
  if lexLt (taskPermuted p.1 g lo hi) p.1 then (taskPermuted p.1 g lo hi, false) else p

/-- One full scan over the generators, starting stationary. -/
def lsPass (gens : List (List Nat)) (lo hi : Nat) (rep : List Nat) : List Nat × Bool :=
  gens.foldl (lsStep lo hi) (rep, true)

/-- The `while (!stationary)` loop with explicit fuel. -/
def lsLoop (gens : List (List Nat)) (lo hi : Nat) : Nat → List Nat → List Nat
  | 0, rep => rep
  | fuel + 1, rep =>
    if (lsPass gens lo hi rep).2 then (lsPass gens lo hi rep).1
    else lsLoop gens lo hi fuel (lsPass gens lo hi rep).1

/-- Base-`B` value of a task mapping; a strictly lexicographically
decreasing chain of equal-length mappings with entries below `B`
strictly decreases this value. -/
def encodeB (B : Nat) (l : List Nat) : Nat := l.foldl (fun acc x => acc * B + x) 0

/-- Strict upper bound on every entry reachable from `tasks` by
restricted permutation: entries outside `[lo, hi]` are never touched
and entries inside stay at most `hi`. -/
def lsBound (tasks : List Nat) (hi : Nat) : Nat := tasks.foldr max hi + 1

/-- `ArchGraphSystem::min_elem_local_search`: fixed-point descent along
the strong generators. -/
def min_elem_local_search (gens : List (List Nat)) (tasks : List Nat) (lo hi : Nat) :
    List Nat :=
  lsLoop gens lo hi (encodeB (lsBound tasks hi) tasks + 1) tasks

/-- The orbit of `m` under repeated application of generators (restricted
to `[lo, hi]`): the orbit of the generated group. -/
inductive ReachFrom (gens : List (List Nat)) (lo hi : Nat) (m : List Nat) : List Nat → Prop
  | refl : ReachFrom gens lo hi m m
  | step {x : List Nat} {g : List Nat} : ReachFrom gens lo hi m x → g ∈ gens →
      ReachFrom gens lo hi m (taskPermuted x g lo hi)

theorem ReachFrom.trans {gens : List (List Nat)} {lo hi : Nat} {m x y : List Nat}
    (h1 : ReachFrom gens lo hi m x) (h2 : ReachFrom gens lo hi x y) :
    ReachFrom gens lo hi m y := by
  induction h2 with
  | refl => exact h1
  | step h hg ih => exact ReachFrom.step ih hg

theorem ReachFrom.length {gens : List (List Nat)} {lo hi : Nat} {m x : List Nat}
    (h : ReachFrom gens lo hi m x) : x.length = m.length := by
  induction h with
  | refl => rfl
  | step h hg ih => rw [taskPermuted_length]; exact ih

theorem taskPermuted_bound {n lo hi B : Nat} (hn : hi + 1 = lo + n) (hB : hi < B)
    {g : List Nat} (hg : validPerm n g) {x : List Nat} (hx : ∀ v ∈ x, v < B) :
    ∀ v ∈ taskPermuted x g lo hi, v < B := by
  intro v hv
  simp only [taskPermuted, List.mem_map] at hv
  obtain ⟨t, ht, rfl⟩ := hv
  unfold taskPermVal
  by_cases h : lo ≤ t ∧ t ≤ hi
  · rw [if_pos h]
    have : papply g (t - lo) < n := papply_lt hg (by omega)
    omega
  · rw [if_neg h]
    exact hx t ht

theorem ReachFrom.bound {n lo hi B : Nat} (hn : hi + 1 = lo + n) (hB : hi < B)
    {gens : List (List Nat)} (hval : ∀ g ∈ gens, validPerm n g)
    {m x : List Nat} (h : ReachFrom gens lo hi m x) (hm : ∀ v ∈ m, v < B) :
    ∀ v ∈ x, v < B := by
  induction h with
  | refl => exact hm
  | step h hg ih => exact taskPermuted_bound hn hB (hval _ hg) ih

theorem encodeB_foldl_le (B : Nat) : ∀ (l : List Nat) (c : Nat),
    c * B ^ l.length ≤ l.foldl (fun acc x => acc * B + x) c := by
  intro l
  induction l with
  | nil => intro c; simp
  | cons x xs ih =>
    intro c
    have h1 := ih (c * B + x)
    calc c * B ^ (x :: xs).length = c * B * B ^ xs.length := by
          rw [List.length_cons, Nat.pow_succ]; ring
    _ ≤ (c * B + x) * B ^ xs.length := Nat.mul_le_mul_right _ (by omega)
    _ ≤ (x :: xs).foldl (fun acc x => acc * B + x) c := h1

theorem encodeB_foldl_lt (B : Nat) : ∀ (l : List Nat) (c : Nat), (∀ x ∈ l, x < B) →
    l.foldl (fun acc x => acc * B + x) c < (c + 1) * B ^ l.length := by
  intro l
  induction l with
  | nil => intro c _; simp
  | cons x xs ih =>
    intro c hb
    have hx : x < B := hb x (List.mem_cons_self x xs)
    have h1 := ih (c * B + x) (fun v hv => hb v (List.mem_cons_of_mem x hv))
    calc (x :: xs).foldl (fun acc x => acc * B + x) c
        < (c * B + x + 1) * B ^ xs.length := h1
    _ ≤ ((c + 1) * B) * B ^ xs.length := Nat.mul_le_mul_right _ (by
        have : c * B + x + 1 ≤ c * B + B := by omega
        calc c * B + x + 1 ≤ c * B + B := this
        _ = (c + 1) * B := by ring)
    _ = (c + 1) * B ^ (x :: xs).length := by simp [List.length_cons]; ring

theorem encodeB_lt_of_lexLt (B : Nat) : ∀ (a b : List Nat) (c : Nat),
    a.length = b.length → (∀ x ∈ a, x < B) → lexLt a b = true →
    a.foldl (fun acc x => acc * B + x) c < b.foldl (fun acc x => acc * B + x) c := by
  intro a
  induction a with
  | nil =>
    intro b c hlen _ hlt
    cases b with
    | nil => simp [lexLt] at hlt
    | cons y ys => simp at hlen
  | cons x xs ih =>
    intro b c hlen hb hlt
    cases b with
    | nil => simp at hlen
    | cons y ys =>
      have hlen' : xs.length = ys.length := by simpa using hlen
      simp only [lexLt, Bool.or_eq_true, Bool.and_eq_true, decide_eq_true_eq] at hlt
      rcases hlt with h | ⟨h, h'⟩
      · have hbx : ∀ v ∈ xs, v < B := fun v hv => hb v (List.mem_cons_of_mem x hv)
        calc (x :: xs).foldl (fun acc v => acc * B + v) c
            = xs.foldl (fun acc v => acc * B + v) (c * B + x) := by simp
        _ < (c * B + x + 1) * B ^ xs.length := encodeB_foldl_lt B xs _ hbx
        _ ≤ (c * B + y) * B ^ ys.length := by
            rw [hlen']; exact Nat.mul_le_mul_right _ (by omega)
        _ ≤ ys.foldl (fun acc v => acc * B + v) (c * B + y) := encodeB_foldl_le B ys _
        _ = (y :: ys).foldl (fun acc v => acc * B + v) c := by simp
      · subst h
        have hbx : ∀ v ∈ xs, v < B := fun v hv => hb v (List.mem_cons_of_mem x hv)
        simpa using ih ys (c * B + x) hlen' hbx h'

theorem lsFold_spec (gens : List (List Nat)) (lo hi : Nat) :
    ∀ (gs : List (List Nat)) (r : List Nat) (b : Bool), (∀ g ∈ gs, g ∈ gens) →
      ReachFrom gens lo hi r (gs.foldl (lsStep lo hi) (r, b)).1
      ∧ ((gs.foldl (lsStep lo hi) (r, b)).1 = r
          ∨ lexLt (gs.foldl (lsStep lo hi) (r, b)).1 r = true)
      ∧ ((gs.foldl (lsStep lo hi) (r, b)).2 = true →
          b = true ∧ (gs.foldl (lsStep lo hi) (r, b)).1 = r
            ∧ ∀ g ∈ gs, lexLt (taskPermuted r g lo hi) r = false)
      ∧ (b = true → (gs.foldl (lsStep lo hi) (r, b)).2 = false →
          lexLt (gs.foldl (lsStep lo hi) (r, b)).1 r = true) := by
  intro gs
  induction gs with
  | nil =>
    intro r b _
    refine ⟨ReachFrom.refl, Or.inl rfl, ?_, ?_⟩
    · intro hb
      exact ⟨hb, rfl, fun g hg => absurd hg (List.not_mem_nil g)⟩
    · intro hb hb2
      simp only [List.foldl_nil] at hb2
      rw [hb] at hb2
      exact absurd hb2 (by simp)
  | cons g gs ih =>
    intro r b hsub
    have hgmem : g ∈ gens := hsub g (List.mem_cons_self g gs)
    have hsub' : ∀ x ∈ gs, x ∈ gens := fun x hx => hsub x (List.mem_cons_of_mem g hx)
    by_cases hupd : lexLt (taskPermuted r g lo hi) r = true
    · have hstep : lsStep lo hi (r, b) g = (taskPermuted r g lo hi, false) := by
        simp [lsStep, hupd]
      have hfold : (g :: gs).foldl (lsStep lo hi) (r, b)
          = gs.foldl (lsStep lo hi) (taskPermuted r g lo hi, false) := by
        simp [List.foldl_cons, hstep]
      obtain ⟨ihr, ihor, ihst, _⟩ := ih (taskPermuted r g lo hi) false hsub'
      rw [hfold]
      have hreach : ReachFrom gens lo hi r
          (gs.foldl (lsStep lo hi) (taskPermuted r g lo hi, false)).1 :=
        ReachFrom.trans (ReachFrom.step ReachFrom.refl hgmem) ihr
      have hlt : lexLt (gs.foldl (lsStep lo hi) (taskPermuted r g lo hi, false)).1 r = true := by
        rcases ihor with heq | hlt'
        · rw [heq]; exact hupd
        · exact lexLt_trans hlt' hupd
      refine ⟨hreach, Or.inr hlt, ?_, fun _ _ => hlt⟩
      intro hst
      obtain ⟨hfalse, _, _⟩ := ihst hst
      exact absurd hfalse (by simp)
    · have hstep : lsStep lo hi (r, b) g = (r, b) := by
        simp [lsStep, hupd]
      have hfold : (g :: gs).foldl (lsStep lo hi) (r, b) = gs.foldl (lsStep lo hi) (r, b) := by
        simp [List.foldl_cons, hstep]
      obtain ⟨ihr, ihor, ihst, ihnb⟩ := ih r b hsub'
      rw [hfold]
      refine ⟨ihr, ihor, ?_, ihnb⟩
      intro hst
      obtain ⟨hb, heq, hall⟩ := ihst hst
      refine ⟨hb, heq, ?_⟩
      intro x hx
      rcases List.mem_cons.mp hx with rfl | hx'
      · simpa using hupd
      · exact hall x hx'

theorem lsLoop_spec {n lo hi B : Nat} (hn : hi + 1 = lo + n) (hB : hi < B)
    (gens : List (List Nat)) (hval : ∀ g ∈ gens, validPerm n g) :
    ∀ (fuel : Nat) (rep : List Nat), (∀ v ∈ rep, v < B) → encodeB B rep < fuel →
      ReachFrom gens lo hi rep (lsLoop gens lo hi fuel rep)
      ∧ (∀ g ∈ gens,
          lexLt (taskPermuted (lsLoop gens lo hi fuel rep) g lo hi)
            (lsLoop gens lo hi fuel rep) = false)
      ∧ lexLe (lsLoop gens lo hi fuel rep) rep = true := by
  intro fuel
  induction fuel with
  | zero => intro rep _ hfuel; omega
  | succ fuel ih =>
    intro rep hb hfuel
    obtain ⟨hreach, hor, hst, hnb⟩ := lsFold_spec gens lo hi gens rep true (fun g hg => hg)
    by_cases hp : (lsPass gens lo hi rep).2 = true
    · obtain ⟨_, heq, hall⟩ := hst hp
      have hres : lsLoop gens lo hi (fuel + 1) rep = rep := by
        simp only [lsLoop, lsPass] at *
        rw [if_pos hp, heq]
      rw [hres]
      exact ⟨ReachFrom.refl, hall, lexLe_refl rep⟩
    · have hp' : (lsPass gens lo hi rep).2 = false := by simpa using hp
      have hlt : lexLt (lsPass gens lo hi rep).1 rep = true := hnb rfl hp'
      have hres : lsLoop gens lo hi (fuel + 1) rep
          = lsLoop gens lo hi fuel (lsPass gens lo hi rep).1 := by
        simp only [lsLoop]
        rw [if_neg (by simp [hp'])]
      have hbr : ∀ v ∈ (lsPass gens lo hi rep).1, v < B :=
        ReachFrom.bound hn hB hval hreach hb
      have hlen : (lsPass gens lo hi rep).1.length = rep.length := hreach.length
      have henc : encodeB B (lsPass gens lo hi rep).1 < encodeB B rep :=
        encodeB_lt_of_lexLt B _ rep 0 hlen hbr hlt
      obtain ⟨ihr, ihfix, ihle⟩ := ih (lsPass gens lo hi rep).1 hbr (by omega)
      rw [hres]
      exact ⟨ReachFrom.trans hreach ihr, ihfix,
        lexLe_trans ihle (lexLe_of_lexLt hlt)⟩

theorem mem_le_foldr_max : ∀ (l : List Nat) (init x : Nat), x ∈ l → x ≤ l.foldr max init := by
  intro l
  induction l with
  | nil => intro init x hx; exact absurd hx (List.not_mem_nil x)
  | cons y ys ih =>
    intro init x hx
    rcases List.mem_cons.mp hx with rfl | hx'
    · simp only [List.foldr_cons]
      omega
    · have := ih init x hx'
      simp only [List.foldr_cons]
      omega

theorem init_le_foldr_max : ∀ (l : List Nat) (init : Nat), init ≤ l.foldr max init := by
  intro l
  induction l with
  | nil => intro init; simp
  | cons y ys ih =>
    intro init
    have := ih init
    simp only [List.foldr_cons]
    omega

/-- C2.  The LocalSearch strategy repeatedly scans the strong
generators, applying any generator that produces a lexicographically
smaller mapping, and terminates at a mapping no generator decreases;
the returned mapping lies in the orbit of `tasks` (reachability under
the generators), is lexicographically at most `tasks`, and is at least
any lexicographic lower bound of the orbit — in particular at least the
exact orbit minimum. -/
theorem min_elem_local_search_spec {n lo hi : Nat}
    (gens : List (List Nat)) (tasks : List Nat)
    (hn : hi + 1 = lo + n)
    (hval : ∀ g ∈ gens, validPerm n g) :
    (∀ g ∈ gens,
      lexLt (taskPermuted (min_elem_local_search gens tasks lo hi) g lo hi)
        (min_elem_local_search gens tasks lo hi) = false)
    ∧ ReachFrom gens lo hi tasks (min_elem_local_search gens tasks lo hi)
    ∧ lexLe (min_elem_local_search gens tasks lo hi) tasks = true
    ∧ ∀ m0 : List Nat, (∀ x, ReachFrom gens lo hi tasks x → lexLe m0 x = true) →
        lexLe m0 (min_elem_local_search gens tasks lo hi) = true := by
  have hB : hi < lsBound tasks hi := by
    have := init_le_foldr_max tasks hi
    unfold lsBound
    omega
  have hb0 : ∀ v ∈ tasks, v < lsBound tasks hi := by
    intro v hv
    have := mem_le_foldr_max tasks hi v hv
    unfold lsBound
    omega
  obtain ⟨hreach, hfix, hle⟩ :=
    lsLoop_spec hn hB gens hval (encodeB (lsBound tasks hi) tasks + 1) tasks hb0 (by omega)
  refine ⟨hfix, hreach, hle, ?_⟩
  intro m0 hm0
  exact hm0 _ hreach

/-- Witness for C2: descent in the symmetric group on two processors
from the task mapping `[1, 0]`. -/
theorem min_elem_local_search_spec_witness :
    ((1 : Nat) + 1 = 0 + 2 ∧ (∀ g ∈ [[1, 0]], validPerm 2 g))
    ∧ ((∀ g ∈ [[1, 0]],
          lexLt (taskPermuted (min_elem_local_search [[1, 0]] [1, 0] 0 1) g 0 1)
            (min_elem_local_search [[1, 0]] [1, 0] 0 1) = false)
      ∧ ReachFrom [[1, 0]] 0 1 [1, 0] (min_elem_local_search [[1, 0]] [1, 0] 0 1)
      ∧ lexLe (min_elem_local_search [[1, 0]] [1, 0] 0 1) [1, 0] = true
      ∧ ∀ m0 : List Nat, (∀ x, ReachFrom [[1, 0]] 0 1 [1, 0] x → lexLe m0 x = true) →
          lexLe m0 (min_elem_local_search [[1, 0]] [1, 0] 0 1) = true) := by
  refine ⟨by decide, ?_⟩
  exact min_elem_local_search_spec (n := 2) [[1, 0]] [1, 0] (by decide) (by decide)

end CGT

namespace CGT

/-! ### Claims C4 and C5: `ArchGraph::complete` (arch_graph.cc lines 103-230)

The colored-graph reduction: with `cts` channel types the source
computes `cts_log2` by `int cts_log2 = 0; while (cts >>= 1) ++cts_log2;`
(the floor base-2 logarithm) and replicates the graph across levels
`0 .. cts_log2`.  On each level `> 0` every vertex is joined by a
vertical edge to its copy on the previous level; a channel of type `t`
contributes a horizontal edge on level `level` exactly when
`(t + 1) & (1 << level)` is non-zero.  The function contains no failure
path whatsoever: in particular it performs no check on the number of
processor or channel types (the only type-count assertions in
arch_graph.cc are in `todot`, guarding the eight-colour dot colour
scheme).  The nauty colouring arrays `lab`/`ptn` and the external
`densenauty` call (a black box per spec section 4.2) lie outside the
constructed graph modelled here. -/

/-- A raw architecture graph: processor type per vertex, channels as
(source, target, channel type), and the numbers of declared processor
and channel types. -/
structure ArchGraphM where
  vertexTypes : List Nat
  edges : List (Nat × Nat × Nat)
  numProcessorTypes : Nat
  numChannelTypes : Nat

/-- `boost::num_vertices(_adj)`. -/
def ArchGraphM.numVertices (ag : ArchGraphM) : Nat := ag.vertexTypes.length

/-- The `while (cts >>= 1) ++cts_log2;` loop, with the shrinking value
itself as structural fuel so that the function evaluates by kernel
reduction. -/
def ctsLog2Aux : Nat → Nat → Nat
  | 0, _ => 0
  | fuel + 1, n => if 2 ≤ n then ctsLog2Aux fuel (n / 2) + 1 else 0

/-- `cts_log2` of the source: the floor base-2 logarithm (0 at 0). -/
def ctsLog2 (n : Nat) : Nat := ctsLog2Aux n n

theorem ctsLog2Aux_eq_log : ∀ (fuel n : Nat), n ≤ fuel → ctsLog2Aux fuel n = Nat.log 2 n := by
  intro fuel
  induction fuel with
  | zero =>
    intro n hn
    have : n = 0 := by omega
    subst this
    simp [ctsLog2Aux]
  | succ fuel ih =>
    intro n hn
    by_cases h2 : 2 ≤ n
    · have hdiv : n / 2 ≤ fuel := by omega
      have : ctsLog2Aux (fuel + 1) n = ctsLog2Aux fuel (n / 2) + 1 := by
        simp [ctsLog2Aux, h2]
      rw [this, ih (n / 2) hdiv, Nat.log_of_one_lt_of_le (by omega) h2]
    · have : ctsLog2Aux (fuel + 1) n = 0 := by
        simp [ctsLog2Aux, h2]
      rw [this, Nat.log_of_lt (by omega)]

theorem ctsLog2_eq_log (n : Nat) : ctsLog2 n = Nat.log 2 n :=
  ctsLog2Aux_eq_log n n (Nat.le_refl n)

/-- The number of levels of the replicated nauty graph:
`cts_log2 + 1` in the source. -/
def nautyLevels (ag : ArchGraphM) : Nat := ctsLog2 ag.numChannelTypes + 1

/-- The edges of the replicated nauty graph, in the source's
construction order: per level, the vertical edges (levels `> 0`) then
the horizontal edges of the channels whose encoded type `t + 1` has the
level's bit set. -/
def nautyEdges (ag : ArchGraphM) : List (Nat × Nat) :=
  (List.range (nautyLevels ag)).flatMap (fun level =>
    (if level = 0 then []
     else (List.range ag.numVertices).map
       (fun v => (v + level * ag.numVertices, v + (level - 1) * ag.numVertices)))
    ++ ag.edges.filterMap (fun e =>
        if Nat.testBit (e.2.2 + 1) level
        then some (e.1 + level * ag.numVertices, e.2.1 + level * ag.numVertices)
        else none))

/-- C4, counterexample.  With three channel types the source replicates
the graph across `ctsLog2 3 + 1 = 2` levels, while the claimed
`⌈log2(#channel-types) + 1⌉ = ⌈log2 3⌉ + 1 = Nat.clog 2 3 + 1 = 3`
would require a third level; accordingly the vertical edge joining the
claimed third level to the second (vertices `2` and `1` of the
replication of a one-vertex graph) is absent. -/
theorem nautyLevels_counterexample :
    nautyLevels ⟨[0], [], 1, 3⟩ = 2 ∧ Nat.clog 2 3 + 1 = 3
    ∧ (2, 1) ∉ nautyEdges ⟨[0], [], 1, 3⟩ := by
  refine ⟨rfl, ?_, by decide⟩
  have h1 : Nat.clog 2 3 ≤ 2 := (Nat.le_pow_iff_clog_le (by omega)).mp (by norm_num)
  have h2 : ¬ Nat.clog 2 3 ≤ 1 := by
    intro h
    have := (Nat.le_pow_iff_clog_le (by omega)).mpr h
    norm_num at this
  omega

end CGT

namespace CGT

/-- C4, amended.  In the colored-graph reduction of a raw architecture
graph with at least one channel type (every channel's type lying below
the declared count), the graph is replicated across
`floor(log2(#channel-types)) + 1 = ⌈log2(#channel-types + 1)⌉` levels
(not `⌈log2(#channel-types) + 1⌉`), every vertex on a level above the
base is linked by a vertical edge to its copy on the previous level,
and a channel of type `t` contributes a horizontal edge on level
`level` if and only if bit `level` of `t + 1` is set. -/
theorem nautyEdges_characterization (ag : ArchGraphM)
    (hcts : ∀ e ∈ ag.edges, e.2.2 < ag.numChannelTypes)
    (hpos : 1 ≤ ag.numChannelTypes) :
    nautyLevels ag = Nat.clog 2 (ag.numChannelTypes + 1)
    ∧ ∀ a b : Nat, ((a, b) ∈ nautyEdges ag ↔
        ((∃ level, 1 ≤ level ∧ level < nautyLevels ag ∧ ∃ v, v < ag.numVertices ∧
            a = v + level * ag.numVertices ∧ b = v + (level - 1) * ag.numVertices)
        ∨ (∃ level, ∃ e ∈ ag.edges, Nat.testBit (e.2.2 + 1) level = true ∧
            a = e.1 + level * ag.numVertices ∧ b = e.2.1 + level * ag.numVertices))) := by
  have hcts0 : ag.numChannelTypes ≠ 0 := by omega
  constructor
  · -- level count: log 2 cts + 1 = clog 2 (cts + 1)
    rw [nautyLevels, ctsLog2_eq_log]
    have hle : Nat.clog 2 (ag.numChannelTypes + 1) ≤ Nat.log 2 ag.numChannelTypes + 1 := by
      rw [← Nat.le_pow_iff_clog_le (by omega)]
      have := Nat.lt_pow_succ_log_self (b := 2) (by omega) ag.numChannelTypes
      omega
    have hge : Nat.log 2 ag.numChannelTypes + 1 ≤ Nat.clog 2 (ag.numChannelTypes + 1) := by
      by_contra hcon
      have h1 : Nat.clog 2 (ag.numChannelTypes + 1) ≤ Nat.log 2 ag.numChannelTypes := by omega
      have h2 := (Nat.le_pow_iff_clog_le (b := 2) (by omega)).mpr h1
      have h3 := Nat.pow_log_le_self 2 hcts0
      omega
    omega
  · intro a b
    constructor
    · intro hmem
      rw [nautyEdges, List.mem_flatMap] at hmem
      obtain ⟨level, hlevel, hin⟩ := hmem
      rw [List.mem_range] at hlevel
      rcases List.mem_append.mp hin with hv | hh
      · -- vertical edge
        by_cases h0 : level = 0
        · rw [if_pos h0] at hv
          exact absurd hv (List.not_mem_nil _)
        · rw [if_neg h0] at hv
          rw [List.mem_map] at hv
          obtain ⟨v, hvmem, heq⟩ := hv
          rw [List.mem_range] at hvmem
          left
          exact ⟨level, by omega, hlevel, v, hvmem, by
            have h1 := congrArg Prod.fst heq
            have h2 := congrArg Prod.snd heq
            simp at h1 h2
            omega, by
            have h2 := congrArg Prod.snd heq
            simp at h2
            omega⟩
      · -- horizontal edge
        rw [List.mem_filterMap] at hh
        obtain ⟨e, hemem, heq⟩ := hh
        by_cases hbit : Nat.testBit (e.2.2 + 1) level = true
        · rw [if_pos hbit] at heq
          have heq' := Option.some.inj heq
          right
          refine ⟨level, e, hemem, hbit, ?_, ?_⟩
          · exact (congrArg Prod.fst heq').symm
          · exact (congrArg Prod.snd heq').symm
        · rw [if_neg hbit] at heq
          exact absurd heq (by simp)
    · intro hmem
      rw [nautyEdges, List.mem_flatMap]
      rcases hmem with ⟨level, h1, h2, v, hv, ha, hb⟩ | ⟨level, e, hemem, hbit, ha, hb⟩
      · refine ⟨level, List.mem_range.mpr h2, ?_⟩
        apply List.mem_append.mpr
        left
        rw [if_neg (by omega : ¬ level = 0), List.mem_map]
        exact ⟨v, List.mem_range.mpr hv, by rw [ha, hb]⟩
      · -- the bit bound forces the level below the replication depth
        have hge : 2 ^ level ≤ e.2.2 + 1 := Nat.testBit_implies_ge hbit
        have hlt : e.2.2 < ag.numChannelTypes := hcts e hemem
        have hlev : level ≤ Nat.log 2 ag.numChannelTypes :=
          (Nat.pow_le_iff_le_log (by omega) hcts0).mp (by omega)
        refine ⟨level, List.mem_range.mpr (by rw [nautyLevels, ctsLog2_eq_log]; omega), ?_⟩
        apply List.mem_append.mpr
        right
        rw [List.mem_filterMap]
        exact ⟨e, hemem, by rw [if_pos hbit, ha, hb]⟩

/-- Witness for the amended C4: a two-vertex graph with one channel of
type 2 among three declared channel types. -/
theorem nautyEdges_characterization_witness :
    ((∀ e ∈ ([(0, 1, 2)] : List (Nat × Nat × Nat)), e.2.2 < 3) ∧ (1 : Nat) ≤ 3)
    ∧ (nautyLevels ⟨[0, 0], [(0, 1, 2)], 1, 3⟩ = Nat.clog 2 (3 + 1)
      ∧ ∀ a b : Nat, ((a, b) ∈ nautyEdges ⟨[0, 0], [(0, 1, 2)], 1, 3⟩ ↔
          ((∃ level, 1 ≤ level ∧ level < nautyLevels ⟨[0, 0], [(0, 1, 2)], 1, 3⟩
              ∧ ∃ v, v < ArchGraphM.numVertices ⟨[0, 0], [(0, 1, 2)], 1, 3⟩ ∧
              a = v + level * ArchGraphM.numVertices ⟨[0, 0], [(0, 1, 2)], 1, 3⟩
              ∧ b = v + (level - 1) * ArchGraphM.numVertices ⟨[0, 0], [(0, 1, 2)], 1, 3⟩)
          ∨ (∃ level, ∃ e ∈ ([(0, 1, 2)] : List (Nat × Nat × Nat)),
              Nat.testBit (e.2.2 + 1) level = true ∧
              a = e.1 + level * ArchGraphM.numVertices ⟨[0, 0], [(0, 1, 2)], 1, 3⟩
              ∧ b = e.2.1 + level * ArchGraphM.numVertices ⟨[0, 0], [(0, 1, 2)], 1, 3⟩)))) := by
  refine ⟨by decide, ?_⟩
  exact nautyEdges_characterization ⟨[0, 0], [(0, 1, 2)], 1, 3⟩ (by decide) (by decide)

end CGT

namespace CGT

/-! ### Claim C5: no `TooManyTypes` failure in `ArchGraph::complete`

`ArchGraph::complete` (arch_graph.cc lines 103-230) is translated as a
fallible computation to make its failure behaviour statable; its body
contains no `throw` at all, so the translation returns `Except.ok`
unconditionally with the constructed nauty graph (vertex count
`n_orig * (cts_log2 + 1)` and edge list).  The error kinds of the
spec's taxonomy (section 7) are declared so that the absence of
`TooManyTypes` is expressible. -/

/-- Error kinds from spec section 7 that the embedded code can name. -/
inductive ArchErr where
  | EmptyComposite
  | InconsistentAllocations
  | TooManyTypes
deriving DecidableEq

/-- `ArchGraph::complete`, as a fallible computation: build the
replicated nauty graph.  No input is rejected — the source performs no
type-count check. -/
def ArchGraph_complete (ag : ArchGraphM) : Except ArchErr (Nat × List (Nat × Nat)) :=
  Except.ok (ag.numVertices * nautyLevels ag, nautyEdges ag)

/-- C5, counterexample.  A graph with eight processor types and eight
channel types — beyond the claimed limit of seven — on which
`complete` succeeds (the reduction simply uses four levels); it does
not fail with `TooManyTypes` or any other error. -/
theorem complete_toomanytypes_counterexample :
    ArchGraph_complete ⟨[0, 1, 2, 3, 4, 5, 6, 7], [(0, 1, 7)], 8, 8⟩
      = Except.ok (32, nautyEdges ⟨[0, 1, 2, 3, 4, 5, 6, 7], [(0, 1, 7)], 8, 8⟩)
    ∧ ∀ err : ArchErr,
        ArchGraph_complete ⟨[0, 1, 2, 3, 4, 5, 6, 7], [(0, 1, 7)], 8, 8⟩ ≠ Except.error err := by
  exact ⟨rfl, fun err h => Except.noConfusion h⟩

/-- C5, amended.  Computing the automorphism group of a raw
architecture graph never fails — in particular it never fails with
`TooManyTypes`, however many processor or channel types are present:
the reduction succeeds with the replicated graph, whose level count
adapts to the number of channel types. -/
theorem complete_never_fails :
    ∀ ag : ArchGraphM,
      ArchGraph_complete ag = Except.ok (ag.numVertices * nautyLevels ag, nautyEdges ag)
      ∧ ∀ err : ArchErr, ArchGraph_complete ag ≠ Except.error err := by
  intro ag
  exact ⟨rfl, fun err h => Except.noConfusion h⟩

/-- Witness for C5's amended theorem at a concrete graph within the
claimed limit (two processor types, three channel types). -/
theorem complete_never_fails_witness :
    ArchGraph_complete ⟨[0, 1], [(0, 1, 2)], 2, 3⟩
      = Except.ok (2 * nautyLevels ⟨[0, 1], [(0, 1, 2)], 2, 3⟩,
          nautyEdges ⟨[0, 1], [(0, 1, 2)], 2, 3⟩)
    ∧ ∀ err : ArchErr, ArchGraph_complete ⟨[0, 1], [(0, 1, 2)], 2, 3⟩ ≠ Except.error err :=
  complete_never_fails ⟨[0, 1], [(0, 1, 2)], 2, 3⟩

end CGT

namespace CGT

/-! ### Claim C6: `PermGroup::direct_product` (perm_group.hpp lines 188-210)

The template computes `total_degree` as the sum of all degrees, then
for each group in order inserts
`perm.shifted(current_degree).extended(total_degree)` for each of its
generators, `current_degree` advancing by the group's degree.
`Perm::shifted` / `Perm::extended` (perm.cc is not among the sources)
are modelled from spec section 3: `shifted(k)` renames `i ↦ i + k` and
is the identity below `k`; `extended(m)` is the identity on
`{n .. m-1}`.  The symmetric-group constructor and the group order
(perm_group.cc / BSGS construction are not among the sources) are
modelled from spec section 4.5: `symmetric_n = ⟨(0,1), (0,1,…,n−1)⟩`
and the order is the number of distinct elements, certified below by an
explicit closure. -/

/-- `Perm::shifted(k)`: identity on `[0, k)`, original images shifted up. -/
def shifted (p : List Nat) (k : Nat) : List Nat :=
  List.range k ++ p.map (fun x => x + k)

/-- `Perm::extended(m)`: identity on the new points `[p.length, m)`. -/
def extended (p : List Nat) (m : Nat) : List Nat :=
  p ++ (List.range m).drop p.length

/-- A permutation group given by degree and generators. -/
structure PermGroupM where
  degree : Nat
  gens : List (List Nat)
deriving DecidableEq

/-- The sum of the degrees of a list of groups (`total_degree`). -/
def totalDegree (groups : List PermGroupM) : Nat :=
  (groups.map PermGroupM.degree).sum

/-- The generator-collection loop of `direct_product`, with the running
`current_degree` accumulator. -/
def dp_gens (total : Nat) : List PermGroupM → Nat → List (List Nat)
  | [], _ => []
  | G :: Gs, cur =>
    G.gens.map (fun p => extended (shifted p cur) total) ++ dp_gens total Gs (cur + G.degree)

/-- `PermGroup::direct_product` over a list of groups. -/
def direct_product (groups : List PermGroupM) : PermGroupM :=
  ⟨totalDegree groups, dp_gens (totalDegree groups) groups 0⟩

/-- The generators the claim describes, written independently of the
accumulator recursion: for each index `i`, the `i`-th group's
generators shifted by the sum of the degrees of the preceding groups
and extended to the total degree. -/
def dpSpecGens (groups : List PermGroupM) : List (List Nat) :=
  (List.range groups.length).flatMap (fun i =>
    (groups.getD i ⟨0, []⟩).gens.map (fun p =>
      extended (shifted p (((groups.take i).map PermGroupM.degree).sum))
        (totalDegree groups)))

theorem dp_gens_eq_spec (total : Nat) :
    ∀ (groups : List PermGroupM) (cur : Nat),
      dp_gens total groups cur
        = (List.range groups.length).flatMap (fun i =>
            (groups.getD i ⟨0, []⟩).gens.map (fun p =>
              extended (shifted p (cur + ((groups.take i).map PermGroupM.degree).sum))
                total)) := by
  intro groups
  induction groups with
  | nil => intro cur; rfl
  | cons G Gs ih =>
    intro cur
    rw [List.length_cons, List.range_succ_eq_map, List.flatMap_cons, List.flatMap_map]
    have htail : (List.range Gs.length).flatMap (fun i =>
          ((G :: Gs).getD (Nat.succ i) ⟨0, []⟩).gens.map (fun p =>
            extended
              (shifted p (cur + (((G :: Gs).take (Nat.succ i)).map PermGroupM.degree).sum))
              total))
        = dp_gens total Gs (cur + G.degree) := by
      rw [ih (cur + G.degree)]
      apply List.flatMap_congr
      intro i _
      have h2 : cur + (((G :: Gs).take (Nat.succ i)).map PermGroupM.degree).sum
          = cur + G.degree + ((Gs.take i).map PermGroupM.degree).sum := by
        simp only [List.take_succ_cons, List.map_cons, List.sum_cons]
        omega
      rw [show ((G :: Gs).getD (Nat.succ i) ⟨0, []⟩) = Gs.getD i ⟨0, []⟩ from rfl, h2]
    rw [htail]
    have hhead : (G :: Gs).getD 0 ⟨0, []⟩ = G := rfl
    have hsum : cur + (((G :: Gs).take 0).map PermGroupM.degree).sum = cur := by simp
    simp only [dp_gens, hhead, hsum]

/-- `(0,1)` as a generator of the symmetric group, from spec 4.5. -/
def symTransposition (n : Nat) : List Nat := [1, 0] ++ (List.range n).drop 2

/-- `(0,1,…,n−1)` as a generator of the symmetric group, from spec 4.5. -/
def symCycle (n : Nat) : List Nat := (List.range n).map (fun i => (i + 1) % n)

/-- Modelled from the spec: `PermGroup::symmetric(n) = ⟨(0,1), (0,1,…,n−1)⟩`
(perm_group.cc is not among the sources). -/
def symmetricPG (n : Nat) : PermGroupM := ⟨n, [symTransposition n, symCycle n]⟩

/-- One closure round: for each known element `e` and generator `g`,
add `g * e` when new. -/
def closureStep (gens acc : List (List Nat)) : List (List Nat) :=
  acc.foldl (fun a e =>
    gens.foldl (fun a2 g => if pcomp g e ∈ a2 then a2 else a2 ++ [pcomp g e]) a) acc

/-- Iterated closure rounds. -/
def closureIter (gens : List (List Nat)) : Nat → List (List Nat) → List (List Nat)
  | 0, acc => acc
  | fuel + 1, acc => closureIter gens fuel (closureStep gens acc)

/-- Modelled from the spec: the element list of the group generated by
`gens` in degree `n` (the order is its length); `fuel` closure rounds
starting from the identity. -/
def groupElems (n : Nat) (gens : List (List Nat)) (fuel : Nat) : List (List Nat) :=
  closureIter gens fuel [pid n]

set_option maxRecDepth 8000 in
/-- C6.  `direct_product` shifts each group's generators by the sum of
the degrees of the preceding groups and extends them to the total
degree (the sum of all degrees); and the direct product of
`symmetric(3)` and `symmetric(2)` has order 12: its generator closure
is a 12-element set, duplicate-free, containing the identity and the
generators and closed under composition. -/
theorem direct_product_gens_order :
    (∀ groups : List PermGroupM,
      direct_product groups = ⟨totalDegree groups, dpSpecGens groups⟩)
    ∧ ((groupElems 5 (direct_product [symmetricPG 3, symmetricPG 2]).gens 6).length = 12
      ∧ (groupElems 5 (direct_product [symmetricPG 3, symmetricPG 2]).gens 6).Nodup
      ∧ pid 5 ∈ groupElems 5 (direct_product [symmetricPG 3, symmetricPG 2]).gens 6
      ∧ (∀ g ∈ (direct_product [symmetricPG 3, symmetricPG 2]).gens,
          g ∈ groupElems 5 (direct_product [symmetricPG 3, symmetricPG 2]).gens 6)
      ∧ ∀ a ∈ groupElems 5 (direct_product [symmetricPG 3, symmetricPG 2]).gens 6,
          ∀ b ∈ groupElems 5 (direct_product [symmetricPG 3, symmetricPG 2]).gens 6,
          pcomp a b ∈ groupElems 5 (direct_product [symmetricPG 3, symmetricPG 2]).gens 6) := by
  constructor
  · intro groups
    unfold direct_product dpSpecGens
    rw [dp_gens_eq_spec (totalDegree groups) groups 0]
    have : ∀ i, (0 : Nat) + ((groups.take i).map PermGroupM.degree).sum
        = ((groups.take i).map PermGroupM.degree).sum := fun i => by omega
    simp only [Nat.zero_add]
  · exact ⟨by decide, by decide, by decide, by decide, by decide⟩

/-- Witness for C6 at the concrete two-group list of the claim. -/
theorem direct_product_gens_order_witness :
    direct_product [symmetricPG 3, symmetricPG 2]
      = ⟨totalDegree [symmetricPG 3, symmetricPG 2], dpSpecGens [symmetricPG 3, symmetricPG 2]⟩ :=
  direct_product_gens_order.1 [symmetricPG 3, symmetricPG 2]

end CGT

namespace CGT

/-! ### Claim C8: `ArchGraphCluster::automorphisms_`
(arch_graph_cluster.cpp lines 60-73)

The source throws `std::logic_error("cluster contains no subsystems")`
— the spec's `EmptyComposite` — when `_subsystems` is empty, and
otherwise collects each subsystem's automorphism group and returns
their `PermGroup::direct_product`.  Subsystems are modelled by their
automorphism groups (the polymorphic `automorphisms(options)` calls). -/

/-- `ArchGraphCluster::automorphisms_`, over the subsystems'
automorphism groups. -/
def cluster_automorphisms (subsystems : List PermGroupM) : Except ArchErr PermGroupM :=
  if subsystems.isEmpty then Except.error ArchErr.EmptyComposite
  else Except.ok (direct_product subsystems)

/-- C8.  Asking for the automorphisms of a Cluster with no subsystems
fails with `EmptyComposite`; for a non-empty Cluster it returns the
direct product of the children's automorphism groups. -/
theorem cluster_automorphisms_spec :
    cluster_automorphisms [] = Except.error ArchErr.EmptyComposite
    ∧ ∀ subsystems : List PermGroupM, subsystems.isEmpty = false →
        cluster_automorphisms subsystems = Except.ok (direct_product subsystems) := by
  refine ⟨rfl, ?_⟩
  intro subsystems h
  rw [cluster_automorphisms, if_neg (by simp [h])]

/-- Witness for C8 at a one-subsystem cluster. -/
theorem cluster_automorphisms_spec_witness :
    ([symmetricPG 2].isEmpty = false)
    ∧ cluster_automorphisms [symmetricPG 2] = Except.ok (direct_product [symmetricPG 2]) :=
  ⟨rfl, cluster_automorphisms_spec.2 [symmetricPG 2] rfl⟩

end CGT

namespace CGT

/-! ### Claim C9: `split_task_allocations`
(profile_parse.cc lines 121-179)

Per input line the source parses one allocation, folding every parsed
processor index into the running `min_pe` / `max_pe` (initialised to
`UINT_MAX` / 0); then, if `num_tasks` is still 0 it records the line's
length, and otherwise throws
`std::invalid_argument("currently only equally sized task sets are
supported")` — the spec's `InconsistentAllocations` — when the length
differs.  The embedding works on the per-line allocations (the
regex/lexing layer is outside the batch-consistency logic this claim
is about); each parsed line is non-empty because the line regexes
require at least one index. -/

/-- `UINT_MAX`, the initial `min_pe`. -/
def UINT_MAX : Nat := 4294967295

/-- The per-line loop of `split_task_allocations`, carrying
`num_tasks`, `min_pe`, `max_pe` and the accumulated allocations. -/
def sta_go : List (List Nat) → Nat → Nat → Nat → List (List Nat) →
    Except ArchErr (Nat × Nat × List (List Nat))
  | [], _, mn, mx, acc => Except.ok (mn, mx, acc)
  | line :: rest, numTasks, mn, mx, acc =>
    if numTasks = 0 then
      sta_go rest line.length (line.foldl min mn) (line.foldl max mx) (acc ++ [line])
    else if line.length ≠ numTasks then Except.error ArchErr.InconsistentAllocations
    else sta_go rest numTasks (line.foldl min mn) (line.foldl max mx) (acc ++ [line])

/-- `split_task_allocations` over the parsed lines of a batch. -/
def split_task_allocations (lines : List (List Nat)) :
    Except ArchErr (Nat × Nat × List (List Nat)) :=
  sta_go lines 0 UINT_MAX 0 []

theorem sta_go_spec :
    ∀ (rest : List (List Nat)) (numTasks mn mx : Nat) (acc : List (List Nat)),
      numTasks ≠ 0 →
      ((∀ l ∈ rest, l.length = numTasks) →
        ∃ mn2 mx2, sta_go rest numTasks mn mx acc = Except.ok (mn2, mx2, acc ++ rest))
      ∧ ((∃ l ∈ rest, l.length ≠ numTasks) →
        sta_go rest numTasks mn mx acc = Except.error ArchErr.InconsistentAllocations) := by
  intro rest
  induction rest with
  | nil =>
    intro numTasks mn mx acc hnt
    constructor
    · intro _
      exact ⟨mn, mx, by simp [sta_go]⟩
    · intro ⟨l, hl, _⟩
      exact absurd hl (List.not_mem_nil l)
  | cons line rest ih =>
    intro numTasks mn mx acc hnt
    by_cases hlen : line.length = numTasks
    · have hstep : sta_go (line :: rest) numTasks mn mx acc
          = sta_go rest numTasks (line.foldl min mn) (line.foldl max mx) (acc ++ [line]) := by
        simp [sta_go, hnt, hlen]
      obtain ⟨ihok, iherr⟩ :=
        ih numTasks (line.foldl min mn) (line.foldl max mx) (acc ++ [line]) hnt
      constructor
      · intro hall
        obtain ⟨mn2, mx2, h⟩ := ihok (fun l hl => hall l (List.mem_cons_of_mem line hl))
        exact ⟨mn2, mx2, by rw [hstep, h, List.append_cons acc line rest]⟩
      · intro ⟨l, hl, hldiff⟩
        rcases List.mem_cons.mp hl with rfl | hl'
        · exact absurd hlen hldiff
        · rw [hstep]
          exact iherr ⟨l, hl', hldiff⟩
    · have hstep : sta_go (line :: rest) numTasks mn mx acc
          = Except.error ArchErr.InconsistentAllocations := by
        simp [sta_go, hnt, hlen]
      constructor
      · intro hall
        exact absurd (hall line (List.mem_cons_self line rest)) hlen
      · intro _
        exact hstep

/-- C9.  Parsing a batch of task allocations fails with
`InconsistentAllocations` exactly when some allocation's length differs
from the first allocation's length; when all lengths agree, parsing
succeeds and returns every allocation. -/
theorem split_task_allocations_spec :
    ∀ lines : List (List Nat), (∀ l ∈ lines, l ≠ []) →
      ((∀ l ∈ lines, l.length = (lines.headD []).length) →
        ∃ mn mx, split_task_allocations lines = Except.ok (mn, mx, lines))
      ∧ ((∃ l ∈ lines, l.length ≠ (lines.headD []).length) →
        split_task_allocations lines = Except.error ArchErr.InconsistentAllocations) := by
  intro lines hne
  cases lines with
  | nil =>
    constructor
    · intro _
      exact ⟨UINT_MAX, 0, rfl⟩
    · intro ⟨l, hl, _⟩
      exact absurd hl (List.not_mem_nil l)
  | cons first rest =>
    have hfirst : first ≠ [] := hne first (List.mem_cons_self first rest)
    have hflen : first.length ≠ 0 := by
      intro h
      exact hfirst (List.eq_nil_of_length_eq_zero h)
    have hstep : split_task_allocations (first :: rest)
        = sta_go rest first.length (first.foldl min UINT_MAX) (first.foldl max 0) [first] := by
      simp [split_task_allocations, sta_go]
    obtain ⟨ihok, iherr⟩ :=
      sta_go_spec rest first.length (first.foldl min UINT_MAX) (first.foldl max 0) [first] hflen
    constructor
    · intro hall
      obtain ⟨mn, mx, h⟩ := ihok (fun l hl => hall l (List.mem_cons_of_mem first hl))
      refine ⟨mn, mx, ?_⟩
      rw [hstep, h]
      simp
    · intro ⟨l, hl, hldiff⟩
      rcases List.mem_cons.mp hl with rfl | hl'
      · exact absurd rfl hldiff
      · rw [hstep]
        exact iherr ⟨l, hl', hldiff⟩

/-- Witness for C9: a consistent two-line batch succeeds and an
inconsistent one fails. -/
theorem split_task_allocations_spec_witness :
    ((∀ l ∈ [[0, 1], [2, 3]], l ≠ ([] : List Nat)) ∧
      (∃ mn mx, split_task_allocations [[0, 1], [2, 3]] = Except.ok (mn, mx, [[0, 1], [2, 3]])))
    ∧ ((∀ l ∈ [[0, 1], [2]], l ≠ ([] : List Nat)) ∧
      split_task_allocations [[0, 1], [2]] = Except.error ArchErr.InconsistentAllocations) := by
  constructor
  · exact ⟨by decide, (split_task_allocations_spec [[0, 1], [2, 3]] (by decide)).1 (by decide)⟩
  · exact ⟨by decide, (split_task_allocations_spec [[0, 1], [2]] (by decide)).2
      ⟨[2], by decide, by decide⟩⟩

end CGT

namespace CGT

/-- Pointwise-equal fold functions fold alike. -/
theorem foldl_congr_fun {α β : Type} (l : List β) (f g : α → β → α) (a : α)
    (h : ∀ x y, f x y = g x y) : l.foldl f a = l.foldl g a := by
  have : f = g := funext (fun x => funext (h x))
  rw [this]

/-! ### Claim C10: `ArchGraphCluster::repr_`
(arch_graph_cluster.cpp lines 75-97)

The source loops over the subsystems, each time replacing the mapping
by `subsystems[i]->repr(mapping, nullptr, &options)` — a null
`TaskOrbits` pointer — and then advancing `options.offset` by the
subsystem's processor count; only after the loop is the final mapping
inserted into the caller's `TaskOrbits` (when one was supplied).  A
subsystem is modelled by its processor count and the representative
computation of its `repr` as a function of (mapping, offset);
`ArchGraphSystem::repr` (arch_graph_system.cc lines 21-42) wraps it and
inserts the representative into a non-null cache.  `TaskOrbits::insert`
(task_orbits.h is not among the sources) is modelled from spec
section 4.8: insert on first occurrence, no-op on a repeated mapping. -/

/-- Modelled from the spec: `TaskOrbits::insert` keeps the stored
mappings (in first-insertion order), ignoring repeats. -/
def taskOrbitsInsert (orbits : List (List Nat)) (m : List Nat) : List (List Nat) :=
  if m ∈ orbits then orbits else orbits ++ [m]

/-- A subsystem, seen through the interface `ArchGraphCluster::repr_`
uses: `num_processors()` and its `repr` computation. -/
structure SubsystemM where
  np : Nat
  reprFun : List Nat → Nat → List Nat

/-- `ArchGraphSystem::repr` of one subsystem: compute the
representative, then insert it into the cache if one is supplied. -/
def subsystem_repr (sub : SubsystemM) (m : List Nat) (orbits : Option (List (List Nat)))
    (offset : Nat) : List Nat × Option (List (List Nat)) :=
  (sub.reprFun m offset, orbits.map (fun os => taskOrbitsInsert os (sub.reprFun m offset)))

/-- The subsystem loop of `ArchGraphCluster::repr_`: thread the mapping
through each subsystem's `repr` with a null cache, advancing the
offset by the subsystem's processor count. -/
def cluster_repr_go : List SubsystemM → List Nat → Nat → List Nat × Nat
  | [], m, offs => (m, offs)
  | sub :: subs, m, offs =>
    cluster_repr_go subs (subsystem_repr sub m none offs).1 (offs + sub.np)

/-- `ArchGraphCluster::repr_`. -/
def cluster_repr (subsystems : List SubsystemM) (m : List Nat)
    (orbits : Option (List (List Nat))) (offset0 : Nat) :
    Except ArchErr (List Nat × Option (List (List Nat))) :=
  if subsystems.isEmpty then Except.error ArchErr.EmptyComposite
  else
    Except.ok ((cluster_repr_go subsystems m offset0).1,
      orbits.map (fun os => taskOrbitsInsert os (cluster_repr_go subsystems m offset0).1))

/-- The final mapping the claim describes, written independently of the
loop: fold the subsystems in order, handing subsystem `i` the offset
`offset0` advanced by the total processor count of the preceding
subsystems (and no orbits cache — `reprFun` consumes none). -/
def cluster_spec_map (subsystems : List SubsystemM) (m : List Nat) (offset0 : Nat) : List Nat :=
  (List.range subsystems.length).foldl
    (fun mm i => ((subsystems.getD i ⟨0, fun m2 _ => m2⟩).reprFun mm
      (offset0 + ((subsystems.take i).map SubsystemM.np).sum))) m

theorem cluster_repr_go_eq_spec :
    ∀ (subsystems : List SubsystemM) (m : List Nat) (offs : Nat),
      cluster_repr_go subsystems m offs
        = (cluster_spec_map subsystems m offs,
           offs + (subsystems.map SubsystemM.np).sum) := by
  intro subsystems
  induction subsystems with
  | nil => intro m offs; simp [cluster_repr_go, cluster_spec_map]
  | cons sub subs ih =>
    intro m offs
    have h1 : cluster_repr_go (sub :: subs) m offs
        = cluster_repr_go subs (sub.reprFun m offs) (offs + sub.np) := rfl
    have h2 : cluster_spec_map (sub :: subs) m offs
        = cluster_spec_map subs (sub.reprFun m offs) (offs + sub.np) := by
      unfold cluster_spec_map
      rw [List.length_cons, List.range_succ_eq_map, List.foldl_cons, List.foldl_map]
      have hhead : ((sub :: subs).getD 0 ⟨0, fun m2 _ => m2⟩).reprFun m
          (offs + (((sub :: subs).take 0).map SubsystemM.np).sum) = sub.reprFun m offs := by
        have : offs + (((sub :: subs).take 0).map SubsystemM.np).sum = offs := by simp
        rw [this]
        rfl
      rw [hhead]
      apply foldl_congr_fun
      intro mm i
      have hsum : offs + (((sub :: subs).take (Nat.succ i)).map SubsystemM.np).sum
          = (offs + sub.np) + ((subs.take i).map SubsystemM.np).sum := by
        simp only [List.take_succ_cons, List.map_cons, List.sum_cons]
        omega
      rw [show (sub :: subs).getD (Nat.succ i) ⟨0, fun m2 _ => m2⟩
          = subs.getD i ⟨0, fun m2 _ => m2⟩ from rfl, hsum]
    rw [h1, ih (sub.reprFun m offs) (offs + sub.np), h2]
    simp only [List.map_cons, List.sum_cons]
    have : offs + sub.np + (subs.map SubsystemM.np).sum
        = offs + (sub.np + (subs.map SubsystemM.np).sum) := by omega
    rw [this]

/-- C10.  With a `TaskOrbits` cache supplied, `ArchGraphCluster::repr_`
invokes every subsystem's `repr` with a null orbits cache and an offset
advanced by the total processor count of the preceding subsystems
(`cluster_spec_map`), and the caller's cache receives exactly one
insertion, of the final composed mapping: a mapping is in the resulting
cache iff it is the final mapping or was already cached; intermediate
per-subsystem mappings are never inserted. -/
theorem cluster_repr_cache_spec :
    ∀ (subsystems : List SubsystemM) (m : List Nat) (os : List (List Nat)) (offset0 : Nat),
      subsystems.isEmpty = false →
      cluster_repr subsystems m (some os) offset0
        = Except.ok (cluster_spec_map subsystems m offset0,
            some (taskOrbitsInsert os (cluster_spec_map subsystems m offset0)))
      ∧ ∀ x : List Nat, x ∈ taskOrbitsInsert os (cluster_spec_map subsystems m offset0) ↔
          (x = cluster_spec_map subsystems m offset0 ∨ x ∈ os) := by
  intro subsystems m os offset0 hne
  constructor
  · rw [cluster_repr, if_neg (by simp [hne]), cluster_repr_go_eq_spec]
    rfl
  · intro x
    unfold taskOrbitsInsert
    by_cases hmem : cluster_spec_map subsystems m offset0 ∈ os
    · rw [if_pos hmem]
      constructor
      · intro hx
        exact Or.inr hx
      · intro hx
        rcases hx with rfl | hx
        · exact hmem
        · exact hx
    · rw [if_neg hmem]
      constructor
      · intro hx
        rcases List.mem_append.mp hx with hx | hx
        · exact Or.inr hx
        · exact Or.inl (by simpa using hx)
      · intro hx
        rcases hx with rfl | hx
        · exact List.mem_append.mpr (Or.inr (by simp))
        · exact List.mem_append.mpr (Or.inl hx)

/-- Witness for C10 at a two-subsystem cluster with a one-entry cache. -/
theorem cluster_repr_cache_spec_witness :
    (([⟨2, fun m2 _ => m2⟩, ⟨3, fun m2 _ => m2⟩] : List SubsystemM).isEmpty = false)
    ∧ (cluster_repr [⟨2, fun m2 _ => m2⟩, ⟨3, fun m2 _ => m2⟩] [0, 1] (some [[4, 4]]) 0
        = Except.ok
            (cluster_spec_map [⟨2, fun m2 _ => m2⟩, ⟨3, fun m2 _ => m2⟩] [0, 1] 0,
             some (taskOrbitsInsert [[4, 4]]
               (cluster_spec_map [⟨2, fun m2 _ => m2⟩, ⟨3, fun m2 _ => m2⟩] [0, 1] 0)))
      ∧ ∀ x : List Nat,
          x ∈ taskOrbitsInsert [[4, 4]]
            (cluster_spec_map [⟨2, fun m2 _ => m2⟩, ⟨3, fun m2 _ => m2⟩] [0, 1] 0) ↔
          (x = cluster_spec_map [⟨2, fun m2 _ => m2⟩, ⟨3, fun m2 _ => m2⟩] [0, 1] 0
            ∨ x ∈ [[4, 4]])) :=
  ⟨rfl, cluster_repr_cache_spec [⟨2, fun m2 _ => m2⟩, ⟨3, fun m2 _ => m2⟩] [0, 1] [[4, 4]] 0 rfl⟩

end CGT

namespace CGT

/-! ### Claim C3: `PermGroup::order` versus element enumeration
(perm_group.hpp lines 47-91 and 269-277)

The iterator and order implementations (perm_group.cc / bsgs.cc) are
not among the sources; both are modelled from the spec.  Spec 4.5:
the order is `∏|Δ_i|` (one transversal element per fundamental-orbit
point, so `|Δ_i|` is the length of level `i`'s transversal) and the
enumeration is a mixed-radix counter over the transversals, each state
yielding the product of the selected `u`-representatives; the counter
increments the low level fastest.  Spec 4.4 gives the BSGS invariants
the proof rests on: level `i`'s transversal elements map `β_i` to the
pairwise-distinct points of the fundamental orbit, and deeper levels'
elements fix `β_i` (they lie in the stabiliser of `β_1 … β_i`). -/

/-- One BSGS level: base point and transversal. -/
structure BSGSLevel where
  beta : Nat
  transversal : List (List Nat)
deriving DecidableEq

/-- All mixed-radix states, as the selected transversal elements, low
level cycling fastest. -/
def combos : List (List (List Nat)) → List (List (List Nat))
  | [] => [[]]
  | t :: rest => (combos rest).flatMap (fun c => t.map (fun u => u :: c))

/-- The group element of one state: the product
`u_1 * (u_2 * (… * id))` (level 1 outermost, spec 4.1 composition). -/
def elemProd (n : Nat) (c : List (List Nat)) : List Nat := c.foldr pcomp (pid n)

/-- Modelled from the spec: full enumeration of a `PermGroup` from its
BSGS transversals (`const_iterator` from `begin()` to `end()`). -/
def pg_enumerate (n : Nat) (levels : List BSGSLevel) : List (List Nat) :=
  (combos (levels.map BSGSLevel.transversal)).map (elemProd n)

/-- Modelled from the spec: `PermGroup::order() = ∏|Δ_i|`. -/
def pg_order (levels : List BSGSLevel) : Nat :=
  (levels.map (fun l => l.transversal.length)).prod

/-- The BSGS invariants of spec 4.4 used by the enumeration: per level,
the base point is in range, the transversal elements are valid
permutations whose images of the base point are pairwise distinct, and
every deeper transversal element fixes the base point. -/
def BSGSwf (n : Nat) : List BSGSLevel → Prop
  | [] => True
  | l :: ls =>
    l.beta < n
    ∧ (∀ u ∈ l.transversal, validPerm n u)
    ∧ (l.transversal.map (fun u => papply u l.beta)).Nodup
    ∧ (∀ l2 ∈ ls, ∀ u ∈ l2.transversal, papply u l.beta = l.beta)
    ∧ BSGSwf n ls

instance BSGSwf.dec (n : Nat) : (ls : List BSGSLevel) → Decidable (BSGSwf n ls)
  | [] => isTrue trivial
  | l :: ls => by
    unfold BSGSwf
    have := BSGSwf.dec n ls
    infer_instance

/-- Permutation-shaped lists: right length, entries in range (products
of valid permutations satisfy this even when we do not track Nodup). -/
def semiValid (n : Nat) (p : List Nat) : Prop := p.length = n ∧ ∀ x ∈ p, x < n

theorem semiValid_pid (n : Nat) : semiValid n (pid n) :=
  ⟨by simp [pid], fun x hx => by simpa [pid] using hx⟩

theorem semiValid_pcomp {n : Nat} {p q : List Nat} (hp : validPerm n p)
    (hq : semiValid n q) : semiValid n (pcomp p q) := by
  refine ⟨by simp [pcomp_length, hq.1], ?_⟩
  intro x hx
  simp only [pcomp, List.mem_map] at hx
  obtain ⟨y, hy, rfl⟩ := hx
  exact papply_lt hp (hq.2 y hy)

theorem combos_mem_forall₂ : ∀ {ts : List (List (List Nat))} {c : List (List Nat)},
    c ∈ combos ts → List.Forall₂ (fun u t => u ∈ t) c ts := by
  intro ts
  induction ts with
  | nil =>
    intro c hc
    simp only [combos, List.mem_singleton] at hc
    subst hc
    exact List.Forall₂.nil
  | cons t rest ih =>
    intro c hc
    simp only [combos, List.mem_flatMap, List.mem_map] at hc
    obtain ⟨c', hc', u, hu, rfl⟩ := hc
    exact List.Forall₂.cons hu (ih hc')

theorem forall₂_mem_exists : ∀ {c : List (List Nat)} {ts : List (List (List Nat))},
    List.Forall₂ (fun u t => u ∈ t) c ts → ∀ u ∈ c, ∃ t ∈ ts, u ∈ t := by
  intro c ts h
  induction h with
  | nil => intro u hu; exact absurd hu (List.not_mem_nil u)
  | @cons u0 t0 c2 ts2 hut htail ih =>
    intro u hu
    rcases List.mem_cons.mp hu with rfl | hu2
    · exact ⟨t0, List.mem_cons_self t0 ts2, hut⟩
    · obtain ⟨t, ht, hut2⟩ := ih u hu2
      exact ⟨t, List.mem_cons_of_mem t0 ht, hut2⟩

theorem mem_of_combos_mem {ts : List (List (List Nat))} {c : List (List Nat)}
    (hc : c ∈ combos ts) : ∀ u ∈ c, ∃ t ∈ ts, u ∈ t :=
  forall₂_mem_exists (combos_mem_forall₂ hc)

theorem BSGSwf_valid {n : Nat} : ∀ {ls : List BSGSLevel}, BSGSwf n ls →
    ∀ l2 ∈ ls, ∀ u ∈ l2.transversal, validPerm n u := by
  intro ls
  induction ls with
  | nil => intro _ l2 hl2; exact absurd hl2 (List.not_mem_nil l2)
  | cons l ls ih =>
    intro hwf l2 hl2
    rcases List.mem_cons.mp hl2 with rfl | hl2'
    · exact hwf.2.1
    · exact ih hwf.2.2.2.2 l2 hl2'

theorem combos_elem_valid {n : Nat} {ls : List BSGSLevel} (hwf : BSGSwf n ls)
    {c : List (List Nat)} (hc : c ∈ combos (ls.map BSGSLevel.transversal)) :
    ∀ u ∈ c, validPerm n u := by
  intro u hu
  obtain ⟨t, ht, hut⟩ := mem_of_combos_mem hc u hu
  rw [List.mem_map] at ht
  obtain ⟨l2, hl2, rfl⟩ := ht
  exact BSGSwf_valid hwf l2 hl2 u hut

theorem elemProd_semiValid {n : Nat} : ∀ {c : List (List Nat)},
    (∀ u ∈ c, validPerm n u) → semiValid n (elemProd n c) := by
  intro c
  induction c with
  | nil => intro _; exact semiValid_pid n
  | cons u c' ih =>
    intro h
    exact semiValid_pcomp (h u (List.mem_cons_self u c'))
      (ih (fun v hv => h v (List.mem_cons_of_mem u hv)))

theorem elemProd_fix {n : Nat} {beta : Nat} (hb : beta < n) : ∀ {c : List (List Nat)},
    (∀ u ∈ c, validPerm n u) → (∀ u ∈ c, papply u beta = beta) →
    papply (elemProd n c) beta = beta := by
  intro c
  induction c with
  | nil => intro _ _; exact papply_pid hb
  | cons u c' ih =>
    intro hval hfix
    have hsv : semiValid n (elemProd n c') :=
      elemProd_semiValid (fun v hv => hval v (List.mem_cons_of_mem u hv))
    have : elemProd n (u :: c') = pcomp u (elemProd n c') := rfl
    rw [this, pcomp_apply (by rw [hsv.1]; exact hb)]
    rw [ih (fun v hv => hval v (List.mem_cons_of_mem u hv))
      (fun v hv => hfix v (List.mem_cons_of_mem u hv))]
    exact hfix u (List.mem_cons_self u c')

theorem pcomp_left_cancel {n : Nat} {u a b : List Nat} (hu : validPerm n u)
    (ha : semiValid n a) (hb : semiValid n b) (h : pcomp u a = pcomp u b) : a = b := by
  apply List.ext_getElem (by rw [ha.1, hb.1])
  intro i h1 h2
  have hlen : i < (pcomp u a).length := by rw [pcomp_length]; exact h1
  have hlen' : i < (pcomp u b).length := by rw [pcomp_length]; exact h2
  have e1 : (pcomp u a)[i] = papply u (a[i]) := by simp [pcomp]
  have e2 : (pcomp u b)[i] = papply u (b[i]) := by simp [pcomp]
  have heq : papply u (a[i]) = papply u (b[i]) := by
    rw [← e1, ← e2]
    congr 1
  exact papply_inj hu (ha.2 _ (List.getElem_mem h1)) (hb.2 _ (List.getElem_mem h2)) heq

theorem sum_map_const {α : Type} : ∀ (l : List α) (k : Nat),
    (l.map (fun _ => k)).sum = l.length * k := by
  intro l k
  induction l with
  | nil => simp
  | cons a l ih =>
    simp only [List.map_cons, List.sum_cons, List.length_cons, ih]
    rw [Nat.succ_mul]
    omega

theorem flatMap_const_length {α β : Type} (l : List α) (f : α → List β) (k : Nat)
    (h : ∀ a ∈ l, (f a).length = k) : (l.flatMap f).length = l.length * k := by
  induction l with
  | nil => simp
  | cons a l ih =>
    rw [List.flatMap_cons, List.length_append, List.length_cons, Nat.succ_mul,
      h a (List.mem_cons_self a l), ih (fun x hx => h x (List.mem_cons_of_mem a hx))]
    omega

theorem combos_length : ∀ ts : List (List (List Nat)),
    (combos ts).length = (ts.map List.length).prod := by
  intro ts
  induction ts with
  | nil => rfl
  | cons t rest ih =>
    have h : (combos (t :: rest)).length = (combos rest).length * t.length :=
      flatMap_const_length (combos rest) _ t.length (fun c _ => by simp)
    rw [h, ih, List.map_cons, List.prod_cons]
    exact Nat.mul_comm _ _

theorem combos_nodup {n : Nat} : ∀ {ls : List BSGSLevel}, BSGSwf n ls →
    ((combos (ls.map BSGSLevel.transversal)).map (elemProd n)).Nodup := by
  intro ls
  induction ls with
  | nil =>
    intro _
    simp [combos]
  | cons l ls ih =>
    intro hwf
    obtain ⟨hb, hval, himg, hfix, hwf'⟩ := hwf
    have ihn := ih hwf'
    -- reshape the enumeration of the extended BSGS
    have hshape : (combos ((l :: ls).map BSGSLevel.transversal)).map (elemProd n)
        = (combos (ls.map BSGSLevel.transversal)).flatMap (fun c =>
            l.transversal.map (fun u => pcomp u (elemProd n c))) := by
      rw [List.map_cons]
      show ((combos (ls.map BSGSLevel.transversal)).flatMap
          (fun c => l.transversal.map (fun u => u :: c))).map (elemProd n) = _
      rw [List.map_flatMap]
      apply List.flatMap_congr
      intro c _
      rw [List.map_map]
      rfl
    rw [hshape]
    -- facts about the head transversal
    have hTnodup : l.transversal.Nodup := List.Nodup.of_map _ himg
    have hinj : ∀ u ∈ l.transversal, ∀ u2 ∈ l.transversal,
        papply u l.beta = papply u2 l.beta → u = u2 := by
      intro u hu u2 hu2 h
      exact List.inj_on_of_nodup_map himg hu hu2 h
    -- per-state facts
    have hcfix : ∀ c ∈ combos (ls.map BSGSLevel.transversal),
        papply (elemProd n c) l.beta = l.beta := by
      intro c hc
      refine elemProd_fix hb (combos_elem_valid hwf' hc) ?_
      intro u hu
      obtain ⟨t, ht, hut⟩ := mem_of_combos_mem hc u hu
      rw [List.mem_map] at ht
      obtain ⟨l2, hl2, rfl⟩ := ht
      exact hfix l2 hl2 u hut
    have happ : ∀ c ∈ combos (ls.map BSGSLevel.transversal), ∀ u ∈ l.transversal,
        papply (pcomp u (elemProd n c)) l.beta = papply u l.beta := by
      intro c hc u hu
      have hsv : semiValid n (elemProd n c) := elemProd_semiValid (combos_elem_valid hwf' hc)
      rw [pcomp_apply (by rw [hsv.1]; exact hb), hcfix c hc]
    rw [List.nodup_flatMap]
    constructor
    · -- within one state, distinct transversal elements give distinct products
      intro c hc
      refine List.Nodup.map_on ?_ hTnodup
      intro u hu u2 hu2 heq
      apply hinj u hu u2 hu2
      rw [← happ c hc u hu, ← happ c hc u2 hu2, heq]
    · -- across distinct states the products differ
      have hpair : (combos (ls.map BSGSLevel.transversal)).Pairwise
          (fun c c2 => elemProd n c ≠ elemProd n c2) := by
        rw [← List.pairwise_map]
        exact ihn
      refine List.Pairwise.imp_of_mem ?_ hpair
      intro c c2 hc hc2 hne
      simp only [Function.onFun]
      intro x hx hx2
      rcases List.mem_map.mp hx with ⟨u, hu, rfl⟩
      rcases List.mem_map.mp hx2 with ⟨u2, hu2, heq⟩
      -- the common element would force equal transversal elements ...
      have huu2 : u2 = u := by
        apply hinj u2 hu2 u hu
        have e1 : papply (pcomp u2 (elemProd n c2)) l.beta = papply u2 l.beta :=
          happ c2 hc2 u2 hu2
        have e2 : papply (pcomp u (elemProd n c)) l.beta = papply u l.beta :=
          happ c hc u hu
        rw [← e1, ← e2, heq]
      subst huu2
      -- ... and then, by cancellation, equal states
      have hcancel : elemProd n c2 = elemProd n c :=
        pcomp_left_cancel (hval u2 hu2)
          (elemProd_semiValid (combos_elem_valid hwf' hc2))
          (elemProd_semiValid (combos_elem_valid hwf' hc)) heq
      exact hne hcancel.symm

/-- C3.  For a well-formed BSGS, the number of elements produced by
full enumeration equals the reported order `∏|Δ_i|`, and the
enumeration produces each element exactly once (the order is stable:
the enumeration is a function of the transversal data). -/
theorem pg_enumeration_counts (n : Nat) (levels : List BSGSLevel) (hwf : BSGSwf n levels) :
    (pg_enumerate n levels).length = pg_order levels ∧ (pg_enumerate n levels).Nodup := by
  constructor
  · rw [pg_enumerate, List.length_map, combos_length, pg_order, List.map_map]
    rfl
  · exact combos_nodup hwf

/-- Witness for C3: the BSGS of the symmetric group on two points (one
level, base point 0, transversal of the two cosets). -/
theorem pg_enumeration_counts_witness :
    BSGSwf 2 [⟨0, [[0, 1], [1, 0]]⟩]
    ∧ ((pg_enumerate 2 [⟨0, [[0, 1], [1, 0]]⟩]).length = pg_order [⟨0, [[0, 1], [1, 0]]⟩]
      ∧ (pg_enumerate 2 [⟨0, [[0, 1], [1, 0]]⟩]).Nodup) :=
  ⟨by decide, pg_enumeration_counts 2 [⟨0, [[0, 1], [1, 0]]⟩] (by decide)⟩

end CGT

namespace CGT

/-! ### Claim C7: `SchreierGeneratorQueue`
(schreier_generator_queue.h lines 24-156, in particular `advance`,
lines 109-139)

The queue walks a strong-generator iterator (`_sg_it`, reset to
`_sg_begin` per orbit point) inside an orbit iterator (`_beta_it`),
modelled as suffix lists of the full lists.  `advance` first moves past
the consumed pair (`next_sg` when `_used`), then skips every pair
`(β, s)` with `incoming(β, s)` — `s` labels the incoming edge to `β` —
and either sets `_exhausted` or stores
`_u_beta * s * ~transversal(s[β])` in `_schreier_generator`.  The
cached `_u_beta` is refreshed by `next_beta`.  The iterator
`begin()` calls `advance` with `_used` still false and marks the queue
used; each `++` calls `advance` again.  The Schreier structure is
abstracted by its two queried functions `transversal` (`u`) and
`incoming` (`inc`). -/

/-- The queue state: the constant data (full strong generator list,
transversal and incoming-test functions) and the cursor state
(`_sg_it`/`_beta_it` as suffixes, the cached `_u_beta`, `_exhausted`,
and the stored `_schreier_generator`). -/
structure SGQ where
  sgsAll : List (List Nat)
  u : Nat → List Nat
  inc : Nat → List Nat → Bool
  sgRem : List (List Nat)
  betaRem : List Nat
  uBeta : List Nat
  exhausted : Bool
  sgen : List Nat

/-- `SchreierGeneratorQueue::next_beta`. -/
def next_beta (s : SGQ) : SGQ :=
  if s.betaRem.tail.isEmpty then
    { s with betaRem := s.betaRem.tail, exhausted := true }
  else
    { s with betaRem := s.betaRem.tail, sgRem := s.sgsAll,
             uBeta := s.u (s.betaRem.tail.headD 0) }

/-- `SchreierGeneratorQueue::next_sg`. -/
def next_sg (s : SGQ) : SGQ :=
  if s.sgRem.tail.isEmpty then next_beta { s with sgRem := s.sgRem.tail }
  else { s with sgRem := s.sgRem.tail }

/-- Termination measure for the `while` loop in `advance`: remaining
pairs, plus one while not exhausted. -/
def SGQ.mu (s : SGQ) : Nat :=
  s.betaRem.length * (s.sgsAll.length + 1) + s.sgRem.length
    + (if s.exhausted then 0 else 1)

theorem mu_next_sg_lt (s : SGQ) (hex : s.exhausted = false) :
    (next_sg s).mu < s.mu := by
  obtain ⟨A, u, inc, R, B, uB, ex, sg⟩ := s
  simp only [] at hex
  subst hex
  cases R with
  | nil =>
    cases B with
    | nil => simp [next_sg, next_beta, SGQ.mu, List.isEmpty]
    | cons b1 bs =>
      cases bs with
      | nil => simp [next_sg, next_beta, SGQ.mu, List.isEmpty]
      | cons b2 bs2 =>
        simp [next_sg, next_beta, SGQ.mu, List.isEmpty, Nat.succ_mul]
  | cons g1 gs =>
    cases gs with
    | nil =>
      cases B with
      | nil => simp [next_sg, next_beta, SGQ.mu, List.isEmpty]
      | cons b1 bs =>
        cases bs with
        | nil => simp [next_sg, next_beta, SGQ.mu, List.isEmpty, Nat.succ_mul]
        | cons b2 bs2 =>
          simp only [next_sg, next_beta, SGQ.mu, List.isEmpty, List.tail_cons,
            List.length_cons, List.length_nil, Nat.succ_mul]
          simp [Nat.succ_mul]
          omega
    | cons g2 gs2 =>
      simp [next_sg, next_beta, SGQ.mu, List.isEmpty, Nat.succ_mul]

end CGT

namespace CGT

set_option linter.unusedVariables false in
/-- The skip loop of `advance`:
`while (!_exhausted && incoming(*_beta_it, *_sg_it)) next_sg();`. -/
def skipLoop (s : SGQ) : SGQ :=
  if h : s.exhausted = false ∧ s.inc (s.betaRem.headD 0) (s.sgRem.headD []) = true then
    skipLoop (next_sg s)
  else s
termination_by s.mu
decreasing_by exact mu_next_sg_lt s h.1

theorem mu_skipLoop_le (s : SGQ) : (skipLoop s).mu ≤ s.mu := by
  unfold skipLoop
  by_cases h : s.exhausted = false ∧ s.inc (s.betaRem.headD 0) (s.sgRem.headD []) = true
  · rw [dif_pos h]
    have h1 := mu_skipLoop_le (next_sg s)
    have h2 := mu_next_sg_lt s h.1
    omega
  · rw [dif_neg h]
termination_by s.mu
decreasing_by exact mu_next_sg_lt s h.1

/-- `_schreier_generator = _u_beta * (*_sg_it) * ~u_beta_x()` — the
element stored by `advance` at the current cursor position. -/
def mkElem (s : SGQ) : List Nat :=
  pcomp (pcomp s.uBeta (s.sgRem.headD []))
    (pinv (s.u (papply (s.sgRem.headD []) (s.betaRem.headD 0))))

/-- Store the Schreier generator unless the queue is exhausted (the
tail of `advance` after the skip loop). -/
def emit (s : SGQ) : SGQ :=
  if s.exhausted then s else { s with sgen := mkElem s }

/-- `SchreierGeneratorQueue::advance`, with the `_used` flag passed
explicitly (the iterator sets it after the first call). -/
def advance (s : SGQ) (used : Bool) : SGQ :=
  emit (skipLoop (if used then next_sg s else s))

theorem mu_emit (s : SGQ) : (emit s).mu = s.mu := by
  unfold emit
  by_cases h : s.exhausted
  · rw [if_pos h]
  · rw [if_neg h]
    obtain ⟨A, u, inc, R, B, uB, ex, sg⟩ := s
    rfl

theorem mu_advance_true_lt (s : SGQ) (hex : s.exhausted = false) :
    (advance s true).mu < s.mu := by
  unfold advance
  rw [if_pos rfl, mu_emit]
  have h1 := mu_skipLoop_le (next_sg s)
  have h2 := mu_next_sg_lt s hex
  omega

/-- Drain the queue through its iterator: collect the stored element
and `advance` until `_exhausted` (`operator++` / `operator*` /
`operator==` against the end iterator). -/
def collect (s : SGQ) : List (List Nat) :=
  if s.exhausted then [] else s.sgen :: collect (advance s true)
termination_by s.mu
decreasing_by
  rename_i h
  exact mu_advance_true_lt s (by simpa using h)

/-- The queue constructed on strong generators, fundamental orbit and
Schreier structure (`_sg_it = begin`, `_beta_it = orbit begin`,
`_u_beta = u_beta()`, flags clear). -/
def initSGQ (sgsAll : List (List Nat)) (orbit : List Nat)
    (u : Nat → List Nat) (inc : Nat → List Nat → Bool) : SGQ :=
  ⟨sgsAll, u, inc, sgsAll, orbit, u (orbit.headD 0), false, []⟩

/-- All elements the queue produces: `begin()` performs the first
`advance` with `_used` false, every later step advances used. -/
def runQueue (sgsAll : List (List Nat)) (orbit : List Nat)
    (u : Nat → List Nat) (inc : Nat → List Nat → Bool) : List (List Nat) :=
  collect (advance (initSGQ sgsAll orbit u inc) false)

/-- The sequence the spec describes: for each orbit point `β` (the
current point consuming only the remaining generator suffix), every
non-incoming strong generator `s` contributes
`u_β * s * (u_{s·β})⁻¹`. -/
def qspec (sgsAll : List (List Nat)) (u : Nat → List Nat) (inc : Nat → List Nat → Bool) :
    List Nat → List (List Nat) → List (List Nat)
  | [], _ => []
  | beta :: brest, rem =>
    (rem.filter (fun g => !inc beta g)).map
      (fun g => pcomp (pcomp (u beta) g) (pinv (u (papply g beta))))
    ++ qspec sgsAll u inc brest sgsAll

/-- The cursor invariant: while not exhausted there is a current pair
and `_u_beta` caches the current point's transversal element; once
exhausted the orbit cursor is spent.  The generator list is non-empty
(the constructor dereferences `_sg_begin`). -/
def SGQInv (s : SGQ) : Prop :=
  s.sgsAll ≠ []
  ∧ (s.exhausted = false → s.betaRem ≠ [] ∧ s.sgRem ≠ []
      ∧ s.uBeta = s.u (s.betaRem.headD 0))
  ∧ (s.exhausted = true → s.betaRem = [])

theorem SGQInv_next_sg {s : SGQ} (hinv : SGQInv s) (hex : s.exhausted = false) :
    SGQInv (next_sg s) := by
  obtain ⟨hA, hlive, hdead⟩ := hinv
  obtain ⟨hbne, hsne, hub⟩ := hlive hex
  unfold next_sg
  by_cases htail : s.sgRem.tail.isEmpty
  · rw [if_pos htail]
    unfold next_beta
    by_cases hbtail : s.betaRem.tail.isEmpty
    · rw [if_pos (by simpa using hbtail)]
      refine ⟨hA, ?_, ?_⟩
      · intro h
        simp at h
      · intro _
        simpa [List.isEmpty_iff] using hbtail
    · rw [if_neg (by simpa using hbtail)]
      refine ⟨hA, ?_, ?_⟩
      · intro _
        refine ⟨by simpa [List.isEmpty_iff] using hbtail, hA, rfl⟩
      · intro h
        rw [hex] at h
        exact absurd h (by simp)
  · rw [if_neg htail]
    refine ⟨hA, ?_, ?_⟩
    · intro _
      exact ⟨hbne, by simpa [List.isEmpty_iff] using htail, hub⟩
    · intro h
      rw [hex] at h
      exact absurd h (by simp)

theorem SGQInv_skipLoop {s : SGQ} (hinv : SGQInv s) : SGQInv (skipLoop s) := by
  unfold skipLoop
  by_cases h : s.exhausted = false ∧ s.inc (s.betaRem.headD 0) (s.sgRem.headD []) = true
  · rw [dif_pos h]
    exact SGQInv_skipLoop (SGQInv_next_sg hinv h.1)
  · rw [dif_neg h]
    exact hinv
termination_by s.mu
decreasing_by exact mu_next_sg_lt s h.1

theorem skipLoop_post (s : SGQ) :
    (skipLoop s).exhausted = true
    ∨ ((skipLoop s).exhausted = false
        ∧ (skipLoop s).inc ((skipLoop s).betaRem.headD 0) ((skipLoop s).sgRem.headD []) = false) := by
  unfold skipLoop
  by_cases h : s.exhausted = false ∧ s.inc (s.betaRem.headD 0) (s.sgRem.headD []) = true
  · rw [dif_pos h]
    exact skipLoop_post (next_sg s)
  · rw [dif_neg h]
    by_cases hex : s.exhausted = true
    · exact Or.inl hex
    · right
      refine ⟨by simpa using hex, ?_⟩
      by_cases hinc : s.inc (s.betaRem.headD 0) (s.sgRem.headD []) = true
      · exact absurd ⟨by simpa using hex, hinc⟩ h
      · simpa using hinc
termination_by s.mu
decreasing_by exact mu_next_sg_lt s h.1

end CGT

namespace CGT

theorem next_sg_sgen (s : SGQ) (e : List Nat) :
    next_sg { s with sgen := e } = { next_sg s with sgen := e } := by
  by_cases h1 : s.sgRem.tail.isEmpty <;> by_cases h2 : s.betaRem.tail.isEmpty <;>
    simp [next_sg, next_beta, h1, h2]

theorem skipLoop_step {s : SGQ}
    (h : s.exhausted = false ∧ s.inc (s.betaRem.headD 0) (s.sgRem.headD []) = true) :
    skipLoop s = skipLoop (next_sg s) := by
  nth_rewrite 1 [skipLoop]
  rw [dif_pos h]

theorem skipLoop_stop {s : SGQ}
    (h : ¬(s.exhausted = false ∧ s.inc (s.betaRem.headD 0) (s.sgRem.headD []) = true)) :
    skipLoop s = s := by
  nth_rewrite 1 [skipLoop]
  rw [dif_neg h]

theorem skipLoop_sgen (s : SGQ) (e : List Nat) :
    skipLoop { s with sgen := e } = { skipLoop s with sgen := e } := by
  by_cases h : s.exhausted = false ∧ s.inc (s.betaRem.headD 0) (s.sgRem.headD []) = true
  · have h' : ({ s with sgen := e } : SGQ).exhausted = false
        ∧ ({ s with sgen := e } : SGQ).inc (({ s with sgen := e } : SGQ).betaRem.headD 0)
            (({ s with sgen := e } : SGQ).sgRem.headD []) = true := h
    rw [skipLoop_step h', skipLoop_step h, next_sg_sgen]
    exact skipLoop_sgen (next_sg s) e
  · have h' : ¬(({ s with sgen := e } : SGQ).exhausted = false
        ∧ ({ s with sgen := e } : SGQ).inc (({ s with sgen := e } : SGQ).betaRem.headD 0)
            (({ s with sgen := e } : SGQ).sgRem.headD []) = true) := h
    rw [skipLoop_stop h', skipLoop_stop h]
termination_by s.mu
decreasing_by exact mu_next_sg_lt s h.1

theorem collect_exhausted {s : SGQ} (h : s.exhausted = true) : collect s = [] := by
  rw [collect, if_pos h]

theorem collect_emit_sgen (x : SGQ) (e : List Nat) :
    collect (emit { x with sgen := e }) = collect (emit x) := by
  by_cases hx : x.exhausted = true
  · have h1 : emit { x with sgen := e } = { x with sgen := e } := by
      rw [emit, if_pos (show ({ x with sgen := e } : SGQ).exhausted = true from hx)]
    have h2 : emit x = x := by rw [emit, if_pos hx]
    rw [h1, h2, collect_exhausted hx,
      collect_exhausted (show ({ x with sgen := e } : SGQ).exhausted = true from hx)]
  · have h1 : emit { x with sgen := e } = { x with sgen := mkElem x } := by
      rw [emit, if_neg (show ¬(({ x with sgen := e } : SGQ).exhausted = true) from hx)]
      rfl
    have h2 : emit x = { x with sgen := mkElem x } := by
      rw [emit, if_neg hx]
    rw [h1, h2]

theorem next_sg_const (s : SGQ) :
    (next_sg s).sgsAll = s.sgsAll ∧ (next_sg s).u = s.u ∧ (next_sg s).inc = s.inc := by
  by_cases h1 : s.sgRem.tail.isEmpty <;> by_cases h2 : s.betaRem.tail.isEmpty <;>
    simp [next_sg, next_beta, h1, h2]

theorem qspec_skip_step {s : SGQ} {beta : Nat} {brest : List Nat}
    {g : List Nat} {grest : List (List Nat)}
    (hB : s.betaRem = beta :: brest) (hG : s.sgRem = g :: grest)
    (hinc : s.inc beta g = true) :
    qspec s.sgsAll s.u s.inc (next_sg s).betaRem (next_sg s).sgRem
      = qspec s.sgsAll s.u s.inc s.betaRem s.sgRem := by
  cases grest with
  | nil =>
    have hnext : next_sg s = next_beta { s with sgRem := [] } := by
      rw [next_sg, hG]
      simp [List.isEmpty]
    cases brest with
    | nil =>
      have : next_beta { s with sgRem := [] }
          = { s with
                sgRem := []
                betaRem := []
                exhausted := true } := by
        rw [next_beta, hB]
        simp [List.isEmpty]
      rw [hnext, this, hB, hG]
      simp [qspec, List.filter, hinc]
    | cons b2 bs2 =>
      have : next_beta { s with sgRem := [] }
          = { s with
                sgRem := s.sgsAll
                betaRem := b2 :: bs2
                uBeta := s.u ((b2 :: bs2).headD 0) } := by
        rw [next_beta, hB]
        simp [List.isEmpty]
      rw [hnext, this, hB, hG]
      simp [qspec, List.filter, hinc]
  | cons g2 gs2 =>
    have hnext : next_sg s = { s with sgRem := g2 :: gs2 } := by
      rw [next_sg, hG]
      simp [List.isEmpty]
    rw [hnext, hB, hG]
    simp [qspec, List.filter, hinc]

theorem qspec_emit_step {s : SGQ} {beta : Nat} {brest : List Nat}
    {g : List Nat} {grest : List (List Nat)}
    (hB : s.betaRem = beta :: brest) (hG : s.sgRem = g :: grest)
    (hinc : s.inc beta g = false) (hub : s.uBeta = s.u beta) :
    mkElem s :: qspec s.sgsAll s.u s.inc (next_sg s).betaRem (next_sg s).sgRem
      = qspec s.sgsAll s.u s.inc s.betaRem s.sgRem := by
  have hmk : mkElem s
      = pcomp (pcomp (s.u beta) g) (pinv (s.u (papply g beta))) := by
    rw [mkElem, hB, hG, hub]
    rfl
  cases grest with
  | nil =>
    have hnext : next_sg s = next_beta { s with sgRem := [] } := by
      rw [next_sg, hG]
      simp [List.isEmpty]
    cases brest with
    | nil =>
      have : next_beta { s with sgRem := [] }
          = { s with
                sgRem := []
                betaRem := []
                exhausted := true } := by
        rw [next_beta, hB]
        simp [List.isEmpty]
      rw [hnext, this, hB, hG, hmk]
      simp [qspec, List.filter, hinc]
    | cons b2 bs2 =>
      have : next_beta { s with sgRem := [] }
          = { s with
                sgRem := s.sgsAll
                betaRem := b2 :: bs2
                uBeta := s.u ((b2 :: bs2).headD 0) } := by
        rw [next_beta, hB]
        simp [List.isEmpty]
      rw [hnext, this, hB, hG, hmk]
      simp [qspec, List.filter, hinc]
  | cons g2 gs2 =>
    have hnext : next_sg s = { s with sgRem := g2 :: gs2 } := by
      rw [next_sg, hG]
      simp [List.isEmpty]
    rw [hnext, hB, hG, hmk]
    simp [qspec, List.filter, hinc]

end CGT

namespace CGT

theorem collect_emit_skipLoop (s : SGQ) (hinv : SGQInv s) :
    collect (emit (skipLoop s)) = qspec s.sgsAll s.u s.inc s.betaRem s.sgRem := by
  by_cases hex : s.exhausted = true
  · have hng : ¬(s.exhausted = false
        ∧ s.inc (s.betaRem.headD 0) (s.sgRem.headD []) = true) := by
      intro hc
      rw [hex] at hc
      exact absurd hc.1 (by simp)
    rw [skipLoop_stop hng, emit, if_pos hex, collect_exhausted hex, hinv.2.2 hex]
    rfl
  · have hex' : s.exhausted = false := by simpa using hex
    obtain ⟨hbne, hsne, hub⟩ := hinv.2.1 hex'
    obtain ⟨beta, brest, hB⟩ := List.exists_cons_of_ne_nil hbne
    obtain ⟨g, grest, hG⟩ := List.exists_cons_of_ne_nil hsne
    by_cases hinc : s.inc beta g = true
    · -- the current pair labels the incoming edge: skipped
      have hgd : s.exhausted = false
          ∧ s.inc (s.betaRem.headD 0) (s.sgRem.headD []) = true := by
        refine ⟨hex', ?_⟩
        rw [hB, hG]
        simpa using hinc
      rw [skipLoop_step hgd, collect_emit_skipLoop (next_sg s) (SGQInv_next_sg hinv hex')]
      obtain ⟨hc1, hc2, hc3⟩ := next_sg_const s
      rw [hc1, hc2, hc3]
      exact qspec_skip_step hB hG hinc
    · -- the current pair yields a Schreier generator
      have hng : ¬(s.exhausted = false
          ∧ s.inc (s.betaRem.headD 0) (s.sgRem.headD []) = true) := by
        intro hc
        rw [hB, hG] at hc
        simp only [List.headD_cons] at hc
        exact hinc hc.2
      rw [skipLoop_stop hng]
      have hemit : emit s = { s with sgen := mkElem s } := by
        rw [emit, if_neg hex]
      rw [hemit]
      have hcol : collect { s with sgen := mkElem s }
          = mkElem s :: collect (advance { s with sgen := mkElem s } true) := by
        rw [collect, if_neg (show ¬(({ s with sgen := mkElem s } : SGQ).exhausted = true)
          from hex)]
      rw [hcol, advance, if_pos rfl, next_sg_sgen, skipLoop_sgen, collect_emit_sgen,
        collect_emit_skipLoop (next_sg s) (SGQInv_next_sg hinv hex')]
      obtain ⟨hc1, hc2, hc3⟩ := next_sg_const s
      rw [hc1, hc2, hc3]
      exact qspec_emit_step hB hG (by simpa using hinc) (by rw [hub, hB]; rfl)
termination_by s.mu
decreasing_by
  · exact mu_next_sg_lt s hex'
  · exact mu_next_sg_lt s hex'

theorem qspec_full (sgsAll : List (List Nat)) (u : Nat → List Nat)
    (inc : Nat → List Nat → Bool) :
    ∀ betas : List Nat,
      qspec sgsAll u inc betas sgsAll
        = betas.flatMap (fun beta => (sgsAll.filter (fun g => !inc beta g)).map
            (fun g => pcomp (pcomp (u beta) g) (pinv (u (papply g beta))))) := by
  intro betas
  induction betas with
  | nil => rfl
  | cons beta brest ih =>
    rw [List.flatMap_cons, ← ih]
    rfl

/-- C7.  Draining the `SchreierGeneratorQueue` produces lazily exactly
the elements `u_β * s * (u_{s·β})⁻¹` for `β` over the fundamental orbit
and `s` over the strong generators, skipping exactly the pairs `(β, s)`
where `s` labels the incoming edge to `β`, in a single pass after which
the iterator is exhausted (the drained list is the whole output). -/
theorem schreier_generator_queue_spec (sgsAll : List (List Nat)) (orbit : List Nat)
    (u : Nat → List Nat) (inc : Nat → List Nat → Bool)
    (hsgs : sgsAll ≠ []) (horb : orbit ≠ []) :
    runQueue sgsAll orbit u inc
      = orbit.flatMap (fun beta => (sgsAll.filter (fun g => !inc beta g)).map
          (fun g => pcomp (pcomp (u beta) g) (pinv (u (papply g beta))))) := by
  have hinv : SGQInv (initSGQ sgsAll orbit u inc) := by
    refine ⟨hsgs, ?_, ?_⟩
    · intro _
      exact ⟨horb, hsgs, rfl⟩
    · intro h
      exact absurd h (by simp [initSGQ])
  have h1 : runQueue sgsAll orbit u inc
      = collect (emit (skipLoop (initSGQ sgsAll orbit u inc))) := rfl
  rw [h1, collect_emit_skipLoop _ hinv]
  exact qspec_full sgsAll u inc orbit

/-- Witness for C7: a one-generator queue over a two-point orbit with a
trivial Schreier structure. -/
theorem schreier_generator_queue_spec_witness :
    (([[1, 0]] : List (List Nat)) ≠ [] ∧ ([0, 1] : List Nat) ≠ [])
    ∧ runQueue [[1, 0]] [0, 1] (fun b => if b = 0 then pid 2 else [1, 0])
        (fun _ _ => false)
      = ([0, 1] : List Nat).flatMap (fun beta =>
          (([[1, 0]] : List (List Nat)).filter (fun g => !(fun _ _ => false) beta g)).map
            (fun g => pcomp (pcomp ((fun b => if b = 0 then pid 2 else [1, 0]) beta) g)
              (pinv ((fun b => if b = 0 then pid 2 else [1, 0]) (papply g beta))))) :=
  ⟨⟨by decide, by decide⟩,
    schreier_generator_queue_spec [[1, 0]] [0, 1]
      (fun b => if b = 0 then pid 2 else [1, 0]) (fun _ _ => false)
      (by decide) (by decide)⟩

end CGT
